import Mathlib

/-!
Verification of the MyGit content-addressable storage engine
(`src/MyGit.js`, `src/ObjectStore.js`, `src/Index.js`, `src/Reference.js`)
against its natural-language specification.

JavaScript strings are modelled as `List Char` (UTF-16 code units; all
strings occurring here are within the BMP, where code units coincide with
code points, i.e. with Lean `Char`s).  Byte buffers (`Buffer`) are
modelled as `List Nat` with every element `< 256`.
-/

namespace MG

/-- A JavaScript string: a list of UTF-16 code units, modelled as chars. -/
abbrev JStr := List Char

/-- Lift a Lean string literal to the `JStr` model. -/
def js (s : String) : JStr := s.data

/-- Byte buffers (Node `Buffer`), as lists of byte values. -/
abbrev Bytes := List Nat

/-! ### UTF-8 encoding and decoding

Models Node's `Buffer.from(string)` (UTF-8 encode) and
`buffer.toString()` (UTF-8 decode).  Decoding of invalid sequences is
approximated by emitting U+FFFD; every buffer decoded in the claims is
valid UTF-8 produced by the encoder. -/

/-- UTF-8 encoding of one Unicode scalar value. -/
def utf8EncodeChar (n : Nat) : Bytes :=
  if n < 0x80 then [n]
  else if n < 0x800 then [0xC0 + n / 64, 0x80 + n % 64]
  else if n < 0x10000 then [0xE0 + n / 4096, 0x80 + n / 64 % 64, 0x80 + n % 64]
  else [0xF0 + n / 262144, 0x80 + n / 4096 % 64, 0x80 + n / 64 % 64, 0x80 + n % 64]

/-- UTF-8 encoding of a JS string (`Buffer.from(s)` for a string `s`). -/
def utf8Str : JStr → Bytes
  | [] => []
  | c :: cs => utf8EncodeChar c.toNat ++ utf8Str cs

/-- One UTF-8 decoding step: given a lead byte and the remaining bytes,
return the decoded scalar value and the bytes left over.  Invalid
sequences yield U+FFFD and consume only the lead byte. -/
def utf8Step (b0 : Nat) (rest : Bytes) : Nat × Bytes :=
  if b0 < 0x80 then (b0, rest)
  else if b0 < 0xC0 then (0xFFFD, rest)
  else if b0 < 0xE0 then
    match rest with
    | b1 :: r =>
      if 0x80 ≤ b1 ∧ b1 < 0xC0 then ((b0 - 0xC0) * 64 + (b1 - 0x80), r)
      else (0xFFFD, b1 :: r)
    | [] => (0xFFFD, [])
  else if b0 < 0xF0 then
    match rest with
    | b1 :: b2 :: r =>
      if (0x80 ≤ b1 ∧ b1 < 0xC0) ∧ (0x80 ≤ b2 ∧ b2 < 0xC0) then
        ((b0 - 0xE0) * 4096 + (b1 - 0x80) * 64 + (b2 - 0x80), r)
      else (0xFFFD, b1 :: b2 :: r)
    | other => (0xFFFD, other)
  else
    match rest with
    | b1 :: b2 :: b3 :: r =>
      if (0x80 ≤ b1 ∧ b1 < 0xC0) ∧ (0x80 ≤ b2 ∧ b2 < 0xC0) ∧ (0x80 ≤ b3 ∧ b3 < 0xC0) then
        ((b0 - 0xF0) * 262144 + (b1 - 0x80) * 4096 + (b2 - 0x80) * 64 + (b3 - 0x80), r)
      else (0xFFFD, b1 :: b2 :: b3 :: r)
    | other => (0xFFFD, other)

theorem utf8Step_snd_length (b0 : Nat) (rest : Bytes) :
    (utf8Step b0 rest).2.length ≤ rest.length := by
  unfold utf8Step
  repeat' split
  all_goals simp_arith

/-- UTF-8 decoding to a list of scalar values, with a step-count fuel so
that the definition is structurally recursive (and hence computable by
the kernel). -/
def utf8DecodeGo : Nat → Bytes → List Nat
  | 0, _ => []
  | _ + 1, [] => []
  | fuel + 1, b0 :: rest =>
    (utf8Step b0 rest).1 :: utf8DecodeGo fuel (utf8Step b0 rest).2

/-- UTF-8 decoding of a byte buffer (`buffer.toString()` scalar values). -/
def utf8Decode (b : Bytes) : List Nat := utf8DecodeGo b.length b

/-- Decode a byte buffer to a JS string (`buffer.toString()`). -/
def bufToStr (b : Bytes) : JStr := (utf8Decode b).map Char.ofNat

/-! ### SHA-1

Models `crypto.createHash('sha1').update(buf).digest('hex')` from
`ObjectStore.hash` (FIPS 180-4 SHA-1 over the byte buffer, hex output). -/

/-- Truncate to 32 bits. -/
def w32 (n : Nat) : Nat := n % 4294967296

/-- 32-bit left rotation. -/
def rotl (k x : Nat) : Nat := w32 (x * 2 ^ k) + x / 2 ^ (32 - k)

/-- 32-bit bitwise complement. -/
def not32 (x : Nat) : Nat := 4294967295 - x

/-- SHA-1 message padding: append `0x80`, zeros, and the 64-bit big-endian
bit length so the total length is a multiple of 64 bytes. -/
def sha1Pad (msg : Bytes) : Bytes :=
  let L := msg.length
  let k := (120 - (L + 1) % 64) % 64
  let bits := L * 8
  msg ++ [0x80] ++ List.replicate k 0 ++
    [bits / 2 ^ 56 % 256, bits / 2 ^ 48 % 256, bits / 2 ^ 40 % 256, bits / 2 ^ 32 % 256,
     bits / 2 ^ 24 % 256, bits / 2 ^ 16 % 256, bits / 2 ^ 8 % 256, bits % 256]

/-- Group bytes into big-endian 32-bit words. -/
def toWords : Bytes → List Nat
  | a :: b :: c :: d :: rest => (((a * 256 + b) * 256 + c) * 256 + d) :: toWords rest
  | _ => []

/-- Split a byte list into 64-byte blocks (structural accumulator form,
so that it evaluates in the kernel).  The accumulator holds the current
partial block reversed. -/
def chunk64Go : Bytes → Bytes → List Bytes
  | [], acc => if acc.isEmpty then [] else [acc.reverse]
  | b :: bs, acc =>
    if acc.length = 63 then (b :: acc).reverse :: chunk64Go bs []
    else chunk64Go bs (b :: acc)

/-- Split a byte list into 64-byte blocks. -/
def chunk64 (l : Bytes) : List Bytes := chunk64Go l []

/-- Extend the 16 schedule words (given reversed) by `k` more words. -/
def sha1Extend (rev : List Nat) : Nat → List Nat
  | 0 => rev
  | k + 1 =>
    sha1Extend (rotl 1 ((rev.getD 2 0).xor ((rev.getD 7 0).xor
      ((rev.getD 13 0).xor (rev.getD 15 0)))) :: rev) k

/-- Round function `f` of SHA-1. -/
def sha1F (i b c d : Nat) : Nat :=
  if i < 20 then ((b.land c).lor ((not32 b).land d))
  else if i < 40 then (b.xor (c.xor d))
  else if i < 60 then ((b.land c).lor ((b.land d).lor (c.land d)))
  else (b.xor (c.xor d))

/-- Round constant `K` of SHA-1. -/
def sha1K (i : Nat) : Nat :=
  if i < 20 then 0x5A827999
  else if i < 40 then 0x6ED9EBA1
  else if i < 60 then 0x8F1BBCDC
  else 0xCA62C1D6

/-- The 80 compression rounds, folding over the schedule words. -/
def sha1Rounds (i : Nat) (ws : List Nat) (st : Nat × Nat × Nat × Nat × Nat) :
    Nat × Nat × Nat × Nat × Nat :=
  match ws with
  | [] => st
  | w :: ws' =>
    match st with
    | (a, b, c, d, e) =>
      sha1Rounds (i + 1) ws' (w32 (rotl 5 a + sha1F i b c d + e + sha1K i + w), a, rotl 30 b, c, d)

/-- Process one 64-byte block, updating the running hash state. -/
def sha1Block (h : Nat × Nat × Nat × Nat × Nat) (block : Bytes) : Nat × Nat × Nat × Nat × Nat :=
  let ws := sha1Extend (toWords block).reverse 64
  match h, sha1Rounds 0 ws.reverse h with
  | (h0, h1, h2, h3, h4), (a, b, c, d, e) =>
    (w32 (h0 + a), w32 (h1 + b), w32 (h2 + c), w32 (h3 + d), w32 (h4 + e))

/-- The SHA-1 digest of a byte buffer, as five 32-bit words. -/
def sha1Words (msg : Bytes) : Nat × Nat × Nat × Nat × Nat :=
  (chunk64 (sha1Pad msg)).foldl sha1Block
    (0x67452301, 0xEFCDAB89, 0x98BADCFE, 0x10325476, 0xC3D2E1F0)

/-- Hex digit character for a nibble. -/
def hexChar (d : Nat) : Char := Char.ofNat (if d < 10 then 48 + d else 87 + d)

/-- Lowercase hex rendering of one 32-bit word (8 nibbles, big-endian). -/
def wordHex (w : Nat) : JStr :=
  [hexChar (w / 2 ^ 28 % 16), hexChar (w / 2 ^ 24 % 16), hexChar (w / 2 ^ 20 % 16),
   hexChar (w / 2 ^ 16 % 16), hexChar (w / 2 ^ 12 % 16), hexChar (w / 2 ^ 8 % 16),
   hexChar (w / 2 ^ 4 % 16), hexChar (w % 16)]

/-- `ObjectStore.hash`: the SHA-1 of a buffer as a 40-char lowercase hex
string (`crypto.createHash('sha1').update(content).digest('hex')`). -/
def sha1Hex (msg : Bytes) : JStr :=
  match sha1Words msg with
  | (a, b, c, d, e) => wordHex a ++ wordHex b ++ wordHex c ++ wordHex d ++ wordHex e

/-! ### JS string helpers -/

/-- `string.split(sep)` for a single-character separator: splits at every
occurrence, keeping empty pieces. -/
def splitChar (sep : Char) : JStr → List JStr
  | [] => [[]]
  | c :: cs =>
    if c = sep then [] :: splitChar sep cs
    else
      match splitChar sep cs with
      | [] => [[c]]
      | h :: t => (c :: h) :: t

/-- `string.startsWith(prefix)`: `strStarts p s` tests whether `p` is a
prefix of `s`. -/
def strStarts (p s : JStr) : Bool :=
  match p with
  | [] => true
  | a :: as =>
    match s with
    | [] => false
    | b :: bs => a = b && strStarts as bs

/-- JS whitespace for `trim` (the characters relevant here). -/
def isJsWs (c : Char) : Bool :=
  c = ' ' ∨ c = '\n' ∨ c = '\t' ∨ c = '\r'

/-- `string.trim()`: strip whitespace from both ends. -/
def trimStr (s : JStr) : JStr :=
  ((s.dropWhile isJsWs).reverse.dropWhile isJsWs).reverse

/-- ASCII decimal digit? -/
def isDigitChar (c : Char) : Bool := 48 ≤ c.toNat ∧ c.toNat ≤ 57

/-- Decimal digit character. -/
def digitChar (d : Nat) : Char := Char.ofNat (48 + d)

/-- Decimal rendering of a natural number, with fuel for structural
recursion (`fuel = n + 1` always suffices). -/
def natToCharsGo : Nat → Nat → JStr
  | 0, _ => []
  | fuel + 1, n =>
    if n < 10 then [digitChar n]
    else natToCharsGo fuel (n / 10) ++ [digitChar (n % 10)]

/-- JS `${n}` for a natural number: decimal digits. -/
def natToChars (n : Nat) : JStr := natToCharsGo (n + 1) n

/-- Numeric value of a list of decimal digit characters. -/
def digitsToNat (s : JStr) : Nat := s.foldl (fun a c => a * 10 + (c.toNat - 48)) 0

/-- Model of JS `parseInt(s)` restricted to the unsigned decimal forms
appearing here: leading whitespace skipped, then the longest digit
prefix; `none` (NaN) when there is no digit. -/
def parseIntOpt (s : JStr) : Option Nat :=
  let t := s.dropWhile isJsWs
  let ds := t.takeWhile isDigitChar
  if ds.isEmpty then none else some (digitsToNat ds)

/-- Value of one hex digit character. -/
def hexVal (c : Char) : Option Nat :=
  if 48 ≤ c.toNat ∧ c.toNat ≤ 57 then some (c.toNat - 48)
  else if 97 ≤ c.toNat ∧ c.toNat ≤ 102 then some (c.toNat - 87)
  else if 65 ≤ c.toNat ∧ c.toNat ≤ 70 then some (c.toNat - 55)
  else none

/-- `Buffer.from(s, 'hex')`: decode pairs of hex digits, stopping at the
first invalid pair or a trailing odd digit. -/
def hexDecode : JStr → Bytes
  | a :: b :: rest =>
    match hexVal a, hexVal b with
    | some x, some y => (x * 16 + y) :: hexDecode rest
    | _, _ => []
  | _ => []

/-! ### `localeCompare` model

`ObjectStore.createTree` and `Index.add` sort with
`a.path.localeCompare(b.path)`.  Node's default-locale collation is
modelled here for the ASCII range: a primary pass that compares
case-folded characters, and, on a primary tie, a secondary pass in which
lowercase sorts before uppercase.  (This matches ICU default collation
for ASCII letters and digits, e.g. `'a' < 'B'` although `'B' < 'a'`
byte-wise; it is not the byte-wise order.) -/

/-- Case-folded primary collation weight of a character (≥ 1). -/
def primW (c : Char) : Nat :=
  if 65 ≤ c.toNat ∧ c.toNat ≤ 90 then c.toNat + 33 else c.toNat + 1

/-- Case (tertiary) collation weight: lowercase (and non-letters) before
uppercase. -/
def caseW (c : Char) : Nat :=
  if 65 ≤ c.toNat ∧ c.toNat ≤ 90 then 2 else 1

/-- Collation key: primary weights, a `0` separator, then case weights. -/
def collKey (s : JStr) : List Nat := s.map primW ++ 0 :: s.map caseW

/-- Lexicographic `≤` on lists of naturals. -/
def listLe : List Nat → List Nat → Bool
  | [], _ => true
  | _ :: _, [] => false
  | a :: as, b :: bs => if a < b then true else if a = b then listLe as bs else false

/-- `s.localeCompare(t) <= 0` in the collation model. -/
def jsLe (s t : JStr) : Bool := listLe (collKey s) (collKey t)

/-! ### ObjectStore (`src/ObjectStore.js`) -/

/-- A `Buffer` or `string` argument, as accepted by
`ObjectStore.storeObject(type, content)`. -/
inductive JSVal where
  | buf (b : Bytes)
  | str (s : JStr)
deriving DecidableEq, Repr

/-- JS `content.length`: byte count for a `Buffer`, UTF-16 code-unit
count for a string (all strings here are in the BMP, so this is the
character count — not the UTF-8 byte count). -/
def jsLen : JSVal → Nat
  | .buf b => b.length
  | .str s => s.length

/-- `Buffer.from(content)`: the identity on buffers, UTF-8 encoding on
strings. -/
def jsBytes : JSVal → Bytes
  | .buf b => b
  | .str s => utf8Str s

/-- The on-disk object directory: fingerprint (hex) → stored buffer.
Models `<root>/objects/<2 hex>/<38 hex>` as a single association list;
newer writes are consed at the front (a later write to the same
fingerprint shadows the old content, as `fs.writeFile` overwrites). -/
abbrev Objects := List (JStr × Bytes)

/-- Association-list lookup by JS string key. -/
def lookupStr {α : Type} (m : List (JStr × α)) (k : JStr) : Option α :=
  (m.find? (fun p => decide (p.1 = k))).map (·.2)

/-- Overwriting insert (`fs.writeFile`). -/
def insertStr {α : Type} (m : List (JStr × α)) (k : JStr) (v : α) : List (JStr × α) :=
  (k, v) :: m.filter (fun p => decide (p.1 ≠ k))

/-- `storeObject` (ObjectStore.js:34-50): the full encoded buffer
`"<type> <content.length>\0" + Buffer.from(content)`. -/
def encodeObject (type : JStr) (content : JSVal) : Bytes :=
  utf8Str (type ++ js " " ++ natToChars (jsLen content)) ++ 0 :: jsBytes content

/-- `storeObject(type, content)` (ObjectStore.js:34-50): hash the encoded
buffer, persist it under the hash, return the hash. -/
def storeObject (os : Objects) (type : JStr) (content : JSVal) : JStr × Objects :=
  let full := encodeObject type content
  let h := sha1Hex full
  (h, insertStr os h full)

/-- The record returned by `getObject` (ObjectStore.js:57-78): `size` is
`parseInt` of the declared size (`none` models `NaN`). -/
structure ObjRec where
  type : JStr
  size : Option Nat
  content : Bytes
deriving DecidableEq, Repr

/-- Error kinds thrown by the engine (the `throw new Error(...)` sites). -/
inductive Err where
  | notFound (h : JStr)
  | notACommit (h : JStr)
  | nothingStaged
  | notStaged (p : JStr)
  | branchExists (n : JStr)
  | noSuchBranch (n : JStr)
  | cannotDeleteCurrent (n : JStr)
deriving DecidableEq, Repr

deriving instance DecidableEq for Except

/-- JS `buffer.slice(a, b)` index normalization: negative indices count
from the end, and indices clamp to the buffer. -/
def normIdx (len : Nat) (i : Int) : Nat :=
  if i < 0 then ((len : Int) + i).toNat else min i.toNat len

/-- JS `buffer.slice(a, b)`. -/
def jsSlice (l : Bytes) (a b : Int) : Bytes :=
  (l.take (normIdx l.length b)).drop (normIdx l.length a)

/-- `content.indexOf(0)` (ObjectStore.js:67): the index of the first NUL
byte, `-1` when absent. -/
def nullIdx (content : Bytes) : Int :=
  match content.findIdx? (· = 0) with
  | some i => (i : Int)
  | none => -1

/-- The parsing part of `getObject` (ObjectStore.js:66-77): split the
stored buffer at the first NUL, read `"<type> <size>"` from the header
(`parseInt` of a missing or non-numeric size is `NaN`, modelled `none`),
and keep the remainder as content.  No corruption check is performed. -/
def parseObjectBuf (content : Bytes) : ObjRec :=
  { type := (splitChar ' ' (bufToStr (jsSlice content 0 (nullIdx content)))).headD []
    size := parseIntOpt ((splitChar ' '
      (bufToStr (jsSlice content 0 (nullIdx content)))).getD 1 (js "undefined"))
    content := jsSlice content (nullIdx content + 1) (content.length : Int) }

/-- `getObject(hash)` (ObjectStore.js:57-78): throw NotFound when the
object file does not exist; otherwise parse the stored buffer. -/
def getObject (os : Objects) (h : JStr) : Except Err ObjRec :=
  match lookupStr os h with
  | none => .error (.notFound h)
  | some content => .ok (parseObjectBuf content)

/-- A staged file entry as stored in the JSON index file
(Index.js `add`): `{path, hash, mode, size, timestamp}`. -/
structure Entry where
  path : JStr
  hash : JStr
  mode : JStr
  size : Nat
  timestamp : Nat
deriving DecidableEq, Repr

/-- The sort relation used by `entries.sort((a, b) => a.path.localeCompare(b.path))`. -/
def entryLe (a b : Entry) : Prop := jsLe a.path b.path = true

instance : DecidableRel entryLe := fun a b => by unfold entryLe; infer_instance

/-- The stable sort performed by JS `Array.prototype.sort` with the
`localeCompare` comparator (any stable sort w.r.t. a consistent
comparator produces this unique result). -/
def sortEntries (l : List Entry) : List Entry := l.insertionSort entryLe

/-- The bytes contributed by one entry to a tree object
(ObjectStore.js:106-112): `"100644 <path>\0"` — the mode is hardcoded —
followed by the entry's fingerprint decoded from hex.  The JS code
builds a binary string and converts with `Buffer.from(-, 'binary')`,
which keeps the low byte of each char code. -/
def treeEntryBytes (e : Entry) : Bytes :=
  (js "100644 " ++ e.path).map (fun c => c.toNat % 256) ++ 0 :: hexDecode e.hash

/-- The concatenated content of a tree object over already-sorted entries. -/
def treeContent (l : List Entry) : Bytes := (l.map treeEntryBytes).flatten

/-- `createTree(entries)` (ObjectStore.js:100-124): sort by
`path.localeCompare`, concatenate the per-entry encodings, store as a
`tree` object. -/
def createTree (os : Objects) (entries : List Entry) : JStr × Objects :=
  storeObject os (js "tree") (.buf (treeContent (sortEntries entries)))

/-- JS truthiness of the `parentHash` argument (`null` and `''` falsy). -/
def jsTruthy : Option JStr → Bool
  | none => false
  | some s => ¬ s.isEmpty

/-- The canonical commit text built by `createCommit`
(ObjectStore.js:134-148): tree line, optional parent line,
author/committer lines with UTC timestamp, blank line, message. -/
def commitText (treeHash : JStr) (parentHash : Option JStr) (message author : JStr)
    (timestamp : Nat) : JStr :=
  js "tree " ++ treeHash ++ js "\n"
    ++ (if jsTruthy parentHash then js "parent " ++ parentHash.getD [] ++ js "\n" else [])
    ++ js "author " ++ author ++ js " " ++ natToChars timestamp ++ js " +0000\n"
    ++ js "committer " ++ author ++ js " " ++ natToChars timestamp ++ js " +0000\n"
    ++ js "\n" ++ message ++ js "\n"

/-- `createCommit(treeHash, parentHash, message, author)`
(ObjectStore.js:134-157).  The timestamp (`Date.now()/1000`) is passed
explicitly to keep the model pure. -/
def createCommit (os : Objects) (treeHash : JStr) (parentHash : Option JStr)
    (message author : JStr) (timestamp : Nat) : JStr × Objects :=
  storeObject os (js "commit") (.str (commitText treeHash parentHash message author timestamp))

/-- The structured commit returned by `getCommit` (ObjectStore.js:218-225);
`date` keeps the parsed epoch seconds (the JS code renders it as an ISO
string). -/
structure CommitData where
  tree : Option JStr
  parent : Option JStr
  author : Option JStr
  committer : Option JStr
  message : JStr
  date : Option Nat
deriving DecidableEq, Repr

/-- One candidate split of `rest` for the regex
`^author (.+) (\d+) (.+)$` applied after the `"author "` prefix: group 1
= `rest.take i`, then a space, a nonempty digit run, a space, and a
nonempty tail. -/
def regexSplitAt (rest : JStr) (i : Nat) : Option (JStr × JStr × JStr) :=
  match rest.drop i with
  | ' ' :: r =>
    let d := r.takeWhile isDigitChar
    let r2 := r.dropWhile isDigitChar
    match r2 with
    | ' ' :: g3 =>
      if d.isEmpty ∨ g3.isEmpty ∨ (rest.take i).isEmpty then none
      else some (rest.take i, d, g3)
    | _ => none
  | _ => none

/-- Model of `line.match(/^author (.+) (\d+) (.+)$/)` after the prefix:
the first `(.+)` is greedy, so the split with the longest group 1 wins. -/
def regexATZ (rest : JStr) : Option (JStr × JStr × JStr) :=
  (List.range (rest.length + 1)).reverse.findSome? (regexSplitAt rest)

/-- The per-line field update of `getCommit`'s parse loop
(ObjectStore.js:229-251), for a non-empty line. -/
def commitLineUpdate (acc : CommitData) (line : JStr) : CommitData :=
  if strStarts (js "tree ") line then { acc with tree := some (line.drop 5) }
  else if strStarts (js "parent ") line then { acc with parent := some (line.drop 7) }
  else if strStarts (js "author ") line then
    match regexATZ (line.drop 7) with
    | some (a, d, _) => { acc with author := some a, date := some (digitsToNat d) }
    | none => acc
  else if strStarts (js "committer ") line then
    match regexATZ (line.drop 10) with
    | some (a, _, _) => { acc with committer := some a }
    | none => acc
  else acc

/-- `getCommit`'s parse loop: scan lines, updating fields, until the
first empty line; return the accumulated fields and `messageStart`
(which stays `0` when no empty line occurs). -/
def commitScan (acc : CommitData) (i : Nat) : List JStr → CommitData × Nat
  | [] => (acc, 0)
  | line :: rest =>
    if line.isEmpty then (acc, i + 1)
    else commitScan (commitLineUpdate acc line) (i + 1) rest

/-- The all-`null` record `getCommit` starts from (ObjectStore.js:218-225). -/
def emptyCommitData : CommitData :=
  { tree := none, parent := none, author := none, committer := none
    message := [], date := none }

/-- The parsing part of `getCommit` (ObjectStore.js:210-256): require
kind `commit`, scan the lines for the header fields, and take everything
after the first empty line (joined and trimmed) as the message. -/
def getCommitParse (h : JStr) (o : ObjRec) : Except Err CommitData :=
  if o.type ≠ js "commit" then .error (.notACommit h)
  else
    .ok { (commitScan emptyCommitData 0 (splitChar '\n' (bufToStr o.content))).1 with
          message := trimStr (List.intercalate (js "\n")
            ((splitChar '\n' (bufToStr o.content)).drop
              (commitScan emptyCommitData 0 (splitChar '\n' (bufToStr o.content))).2)) }

/-- `getCommit(hash)` (ObjectStore.js:209-257): retrieve the object and
parse it as a commit. -/
def getCommit (os : Objects) (h : JStr) : Except Err CommitData :=
  match getObject os h with
  | .error e => .error e
  | .ok o => getCommitParse h o

/-! ### Staging index (`src/Index.js`)

The index file is JSON; the model keeps the parsed entry list.  A
missing or unreadable file loads as `[]` (Index.js:482-492). -/

/-- `Index.add(filePath, blobHash)` (Index.js:507-532): drop any entry
for the path, append a fresh entry (mode hardcoded `'100644'`, size `0`,
`Date.now()` passed explicitly), and re-sort by path. -/
def indexAdd (entries : List Entry) (filePath blobHash : JStr) (now : Nat) : List Entry :=
  sortEntries
    (entries.filter (fun e => decide (e.path ≠ filePath))
      ++ [{ path := filePath, hash := blobHash, mode := js "100644", size := 0
            timestamp := now }])

/-- `Index.remove(filePath)` (Index.js:538-549): throw NotStaged when the
path has no entry (the file is then not rewritten), else save the
filtered list. -/
def indexRemove (entries : List Entry) (filePath : JStr) : Except Err (List Entry) :=
  let filtered := entries.filter (fun e => decide (e.path ≠ filePath))
  if filtered.length = entries.length then .error (.notStaged filePath)
  else .ok filtered

/-! ### References (`src/Reference.js`)

Branch files live under `refs/heads/<name>`; the model is the map
name → file content.  `HEAD` is kept as its raw file content. -/

/-- The whole persistent repository state: object store, staging index,
HEAD file content (`none` = file absent), and branch files. -/
structure State where
  objects : Objects
  index : List Entry
  head : Option JStr
  branches : List (JStr × JStr)
deriving DecidableEq, Repr

/-- `Reference.setHead(branchName)` (Reference.js:284-289). -/
def setHead (s : State) (branchName : JStr) : State :=
  { s with head := some (js "ref: refs/heads/" ++ branchName) }

/-- `Reference.getCurrentBranch()` (Reference.js:295-308): default
`master` when HEAD is absent; strip the symbolic prefix; otherwise the
detached marker `HEAD`. -/
def getCurrentBranch (s : State) : JStr :=
  match s.head with
  | none => js "master"
  | some content =>
    if strStarts (js "ref: refs/heads/") content then trimStr (content.drop 16)
    else js "HEAD"

/-- `Reference.createBranch(branchName, commitHash)`
(Reference.js:315-334): BranchExists when the file exists; otherwise
write the hash, or an empty file when `commitHash` is `null`. -/
def refCreateBranch (s : State) (branchName : JStr) (commitHash : Option JStr) :
    Except Err State :=
  if (lookupStr s.branches branchName).isSome then .error (.branchExists branchName)
  else .ok { s with branches := insertStr s.branches branchName (commitHash.getD []) }

/-- `Reference.updateBranch(branchName, commitHash)`
(Reference.js:341-351): NoSuchBranch when the file does not exist. -/
def updateBranch (s : State) (branchName commitHash : JStr) : Except Err State :=
  if (lookupStr s.branches branchName).isSome then
    .ok { s with branches := insertStr s.branches branchName commitHash }
  else .error (.noSuchBranch branchName)

/-- `Reference.getBranchCommit(branchName)` (Reference.js:358-369):
NoSuchBranch when the file does not exist; `none` when the trimmed file
content is empty. -/
def getBranchCommit (s : State) (branchName : JStr) : Except Err (Option JStr) :=
  match lookupStr s.branches branchName with
  | none => .error (.noSuchBranch branchName)
  | some content =>
    let trimmed := trimStr content
    .ok (if trimmed.isEmpty then none else some trimmed)

/-- First path segment of a branch name (the entry `fs.readdir` shows at
the top level of `refs/heads` for that branch file). -/
def firstSeg (name : JStr) : JStr := name.takeWhile (· ≠ '/')

/-- Each element once, keeping first occurrences (a directory listing
shows each child once). -/
def uniqFirst : List JStr → List JStr
  | [] => []
  | x :: xs => x :: (uniqFirst xs).filter (fun y => decide (y ≠ x))

/-- `Reference.listBranches()` (Reference.js:375-386): `fs.readdir` of
`refs/heads` is **not recursive** — it lists only the top-level children
— and the `isFile()` filter then drops directories.  A child is a plain
file exactly when it is itself a branch name. -/
def listBranches (s : State) : List JStr :=
  (uniqFirst (s.branches.map (fun p => firstSeg p.1))).filter
    (fun child => s.branches.any (fun p => decide (p.1 = child)))

/-! ### Repository engine (`src/MyGit.js`) -/

/-- The hardcoded author used by `MyGit.commit` (MyGit.js:97). -/
def theAuthor : JStr := js "MyGit User <user@mygit.com>"

/-- A repository root before `init`: no files at all. -/
def emptyState : State := { objects := [], index := [], head := none, branches := [] }

/-- `MyGit.init()` (MyGit.js:30-48): create the directory skeleton
(no-op in the model), point HEAD at `master`, create the initial
`master` branch with no commit. -/
def init (s : State) : Except Err State :=
  refCreateBranch (setHead s (js "master")) (js "master") none

/-- The state of a freshly initialized repository (`init` on an empty
root). -/
def initState : State :=
  { objects := [], index := [], head := some (js "ref: refs/heads/master")
    branches := [(js "master", [])] }

/-- `MyGit.commit(message)` (MyGit.js:78-111).  Failures return the state
as mutated so far (objects written before the failing step stay
written); the staging index is cleared only on the success path, after
the branch update. -/
def commit (s : State) (message : JStr) (now : Nat) : Except Err JStr × State :=
  if s.index.length = 0 then (.error .nothingStaged, s)
  else
    let treeHash := (createTree s.objects s.index).1
    let s1 : State := { s with objects := (createTree s.objects s.index).2 }
    let currentBranch := getCurrentBranch s1
    match getBranchCommit s1 currentBranch with
    | .error e => (.error e, s1)
    | .ok parentCommit =>
      let commitHash :=
        (createCommit s1.objects treeHash parentCommit message theAuthor now).1
      let s2 : State :=
        { s1 with objects :=
            (createCommit s1.objects treeHash parentCommit message theAuthor now).2 }
      match updateBranch s2 currentBranch commitHash with
      | .error e => (.error e, s2)
      | .ok s3 => (.ok commitHash, { s3 with index := [] })

/-- The loop of `MyGit.log` (MyGit.js:153-163): follow parents while the
count allows and the current hash is truthy. -/
def logLoop (s : State) : Nat → Option JStr → Except Err (List (JStr × CommitData))
  | 0, _ => .ok []
  | n + 1, cur =>
    if jsTruthy cur then
      match cur with
      | none => .ok []
      | some h =>
        match getCommit s.objects h with
        | .error e => .error e
        | .ok cd =>
          match logLoop s n cd.parent with
          | .error e => .error e
          | .ok rest => .ok ((h, cd) :: rest)
    else .ok []

/-- `MyGit.log(count)` (MyGit.js:145-166): empty history when the branch
has no commit, else walk the parent chain. -/
def log (s : State) (count : Nat) : Except Err (List (JStr × CommitData)) :=
  match getBranchCommit s (getCurrentBranch s) with
  | .error e => .error e
  | .ok none => .ok []
  | .ok (some headCommit) => logLoop s count (some headCommit)

/-- `MyGit.createBranch(branchName)` (MyGit.js:172-179): the new branch
inherits the current branch's tip. -/
def mygitCreateBranch (s : State) (branchName : JStr) : Except Err State :=
  match getBranchCommit s (getCurrentBranch s) with
  | .error e => .error e
  | .ok currentCommit => refCreateBranch s branchName currentCommit

/-- `MyGit.checkout(branchName)` (MyGit.js:199-209): NoSuchBranch when
the name is not in `listBranches()`, else move HEAD. -/
def checkout (s : State) (branchName : JStr) : Except Err State :=
  if branchName ∈ listBranches s then .ok (setHead s branchName)
  else .error (.noSuchBranch branchName)

/-! ### Order properties of the collation model -/

theorem listLe_total : ∀ a b : List Nat, listLe a b = true ∨ listLe b a = true
  | [], _ => .inl rfl
  | _ :: _, [] => .inr rfl
  | a :: as, b :: bs => by
    rcases Nat.lt_trichotomy a b with h | h | h
    · left; simp [listLe, h]
    · subst h
      rcases listLe_total as bs with ih | ih <;> simp [listLe, ih]
    · right; simp [listLe, h]

theorem listLe_trans : ∀ {a b c : List Nat},
    listLe a b = true → listLe b c = true → listLe a c = true
  | [], _, _, _, _ => rfl
  | _ :: _, [], _, h, _ => by simp [listLe] at h
  | _ :: _, _ :: _, [], _, h => by simp [listLe] at h
  | a :: as, b :: bs, c :: cs, hab, hbc => by
    simp only [listLe] at hab hbc ⊢
    rcases Nat.lt_trichotomy a b with h | h | h
    · rcases Nat.lt_trichotomy b c with h' | h' | h'
      · rw [if_pos (by omega)]
      · subst h'; rw [if_pos h]
      · rw [if_neg (by omega), if_neg (by omega)] at hbc
        exact absurd hbc (by simp)
    · subst h
      rcases Nat.lt_trichotomy a c with h' | h' | h'
      · rw [if_pos h']
      · subst h'
        rw [if_neg (by omega), if_pos rfl] at hab hbc ⊢
        exact listLe_trans hab hbc
      · rw [if_neg (by omega), if_neg (by omega)] at hbc
        exact absurd hbc (by simp)
    · rw [if_neg (by omega), if_neg (by omega)] at hab
      exact absurd hab (by simp)

theorem listLe_antisymm : ∀ {a b : List Nat},
    listLe a b = true → listLe b a = true → a = b
  | [], [], _, _ => rfl
  | [], _ :: _, _, h => by simp [listLe] at h
  | _ :: _, [], h, _ => by simp [listLe] at h
  | a :: as, b :: bs, hab, hba => by
    simp only [listLe] at hab hba
    rcases Nat.lt_trichotomy a b with h | h | h
    · rw [if_neg (by omega), if_neg (by omega)] at hba
      exact absurd hba (by simp)
    · subst h
      rw [if_neg (by omega), if_pos rfl] at hab hba
      rw [listLe_antisymm hab hba]
    · rw [if_neg (by omega), if_neg (by omega)] at hab
      exact absurd hab (by simp)

theorem primW_pos (c : Char) : 0 < primW c := by
  unfold primW; split <;> omega

/-- Splitting at a separator that occurs in neither prefix is unique. -/
theorem sep_split_unique : ∀ {A C B D : List Nat}, (∀ x ∈ A, x ≠ 0) → (∀ x ∈ C, x ≠ 0) →
    A ++ 0 :: B = C ++ 0 :: D → A = C ∧ B = D
  | [], [], _, _, _, _, h => by simpa using h
  | [], c :: C', _, _, hA, hC, h => by
    simp only [List.nil_append, List.cons_append, List.cons.injEq] at h
    exact absurd h.1.symm (hC c (by simp))
  | a :: A', [], _, _, hA, hC, h => by
    simp only [List.nil_append, List.cons_append, List.cons.injEq] at h
    exact absurd h.1 (hA a (by simp))
  | a :: A', c :: C', B, D, hA, hC, h => by
    simp only [List.cons_append, List.cons.injEq] at h
    have ih := sep_split_unique (fun x hx => hA x (by simp [hx]))
      (fun x hx => hC x (by simp [hx])) h.2
    exact ⟨by rw [h.1, ih.1], ih.2⟩

theorem char_eq_of_weights (c d : Char) (hp : primW c = primW d) (hc : caseW c = caseW d) :
    c = d := by
  unfold primW at hp
  unfold caseW at hc
  have : c.toNat = d.toNat := by
    split_ifs at hp hc <;> omega
  calc c = Char.ofNat c.toNat := (Char.ofNat_toNat c).symm
    _ = Char.ofNat d.toNat := by rw [this]
    _ = d := Char.ofNat_toNat d

theorem collKey_inj : ∀ {s t : JStr}, collKey s = collKey t → s = t := by
  intro s t h
  unfold collKey at h
  obtain ⟨h1, h2⟩ := sep_split_unique
    (by intro x hx
        obtain ⟨c, _, rfl⟩ := List.mem_map.mp hx
        have := primW_pos c; omega)
    (by intro x hx
        obtain ⟨c, _, rfl⟩ := List.mem_map.mp hx
        have := primW_pos c; omega) h
  clear h
  induction s generalizing t with
  | nil =>
    cases t with
    | nil => rfl
    | cons c t' => simp at h1
  | cons c s' ih =>
    cases t with
    | nil => simp at h1
    | cons d t' =>
      simp only [List.map_cons, List.cons.injEq] at h1 h2
      rw [char_eq_of_weights c d h1.1 h2.1, ih h1.2 h2.2]

theorem jsLe_total (s t : JStr) : jsLe s t = true ∨ jsLe t s = true :=
  listLe_total _ _

theorem jsLe_trans {s t u : JStr} (h1 : jsLe s t = true) (h2 : jsLe t u = true) :
    jsLe s u = true :=
  listLe_trans h1 h2

theorem jsLe_antisymm {s t : JStr} (h1 : jsLe s t = true) (h2 : jsLe t s = true) : s = t :=
  collKey_inj (listLe_antisymm h1 h2)

instance : IsTotal Entry entryLe := ⟨fun a b => jsLe_total a.path b.path⟩

instance : IsTrans Entry entryLe := ⟨fun _ _ _ => jsLe_trans⟩

theorem sortEntries_sorted (l : List Entry) : List.Sorted entryLe (sortEntries l) :=
  List.sorted_insertionSort entryLe l

theorem sortEntries_perm (l : List Entry) : (sortEntries l).Perm l :=
  List.perm_insertionSort entryLe l

/-- Two sorted entry lists that are permutations of each other and have
pairwise-distinct paths are equal. -/
theorem sorted_nodup_path_unique : ∀ {l₁ l₂ : List Entry}, l₁.Perm l₂ →
    List.Sorted entryLe l₁ → List.Sorted entryLe l₂ →
    (l₁.map Entry.path).Nodup → l₁ = l₂
  | [], _, hp, _, _, _ => hp.nil_eq
  | a :: t₁, l₂, hp, hs₁, hs₂, hnd => by
    cases l₂ with
    | nil => exact absurd hp (by simp)
    | cons b t₂ =>
      have hnd' : (Entry.path a :: t₁.map Entry.path).Nodup := by
        rw [List.map_cons] at hnd; exact hnd
      have hndc := List.nodup_cons.mp hnd'
      have hab : a = b := by
        by_contra hne
        have haInt₂ : a ∈ t₂ := by
          have : a ∈ b :: t₂ := hp.mem_iff.mp (by simp)
          rcases List.mem_cons.mp this with h | h
          · exact absurd h hne
          · exact h
        have hbInt₁ : b ∈ t₁ := by
          have : b ∈ a :: t₁ := hp.mem_iff.mpr (by simp)
          rcases List.mem_cons.mp this with h | h
          · exact absurd h.symm hne
          · exact h
        have h1 : entryLe a b := (List.sorted_cons.mp hs₁).1 b hbInt₁
        have h2 : entryLe b a := (List.sorted_cons.mp hs₂).1 a haInt₂
        have hpath : a.path = b.path := jsLe_antisymm h1 h2
        exact hndc.1 (List.mem_map.mpr ⟨b, hbInt₁, hpath.symm⟩)
      subst hab
      have ih := sorted_nodup_path_unique hp.cons_inv
        (List.sorted_cons.mp hs₁).2 (List.sorted_cons.mp hs₂).2 hndc.2
      rw [ih]

/-! ### UTF-8 round-trip and byte-level lemmas -/

theorem toNat_ofNat_valid (n : Nat) (h : n.isValidChar) : (Char.ofNat n).toNat = n := by
  unfold Char.ofNat
  rw [dif_pos h]
  rfl

theorem utf8Str_append (a b : JStr) : utf8Str (a ++ b) = utf8Str a ++ utf8Str b := by
  induction a with
  | nil => rfl
  | cons c cs ih => simp [utf8Str, ih]

theorem utf8EncodeChar_ne_zero {n : Nat} (hn : 0 < n) : 0 ∉ utf8EncodeChar n := by
  unfold utf8EncodeChar
  split_ifs <;> simp <;> omega

/-- Enough fuel makes `utf8DecodeGo` independent of the exact fuel. -/
theorem utf8DecodeGo_fuel : ∀ (f : Nat) (l : Bytes), l.length ≤ f →
    utf8DecodeGo f l = utf8DecodeGo l.length l
  | 0, l, h => by
    have : l = [] := List.length_eq_zero.mp (Nat.le_zero.mp h)
    subst this; rfl
  | _ + 1, [], _ => rfl
  | f + 1, b0 :: rest, h => by
    have hs := utf8Step_snd_length b0 rest
    simp only [utf8DecodeGo, List.length_cons]
    rw [utf8DecodeGo_fuel f (utf8Step b0 rest).2 (by simp at h; omega),
      utf8DecodeGo_fuel rest.length (utf8Step b0 rest).2 hs]

/-- Decoding one encoded scalar consumes exactly its bytes. -/
theorem utf8Step_encode (n : Nat) (hn : n < 1114112) (rest : Bytes) :
    utf8Step ((utf8EncodeChar n).headD 0) ((utf8EncodeChar n).tail ++ rest) = (n, rest) := by
  by_cases h1 : n < 128
  · simp only [utf8EncodeChar, if_pos h1]
    simp [utf8Step, h1]
  · by_cases h2 : n < 2048
    · simp only [utf8EncodeChar, if_neg h1, if_pos h2]
      have d1 : n / 64 < 32 := by omega
      have d2 : 2 ≤ n / 64 := by omega
      have m1 : n % 64 < 64 := Nat.mod_lt _ (by omega)
      simp only [List.headD, List.tail, List.cons_append, List.nil_append, utf8Step]
      rw [if_neg (by omega), if_neg (by omega), if_pos (by omega)]
      rw [if_pos (by omega)]
      have : (192 + n / 64 - 192) * 64 + (128 + n % 64 - 128) = n := by
        have := Nat.div_add_mod n 64
        omega
      rw [this]
    · by_cases h3 : n < 65536
      · simp only [utf8EncodeChar, if_neg h1, if_neg h2, if_pos h3]
        have d1 : n / 4096 < 16 := by omega
        have m1 : n / 64 % 64 < 64 := Nat.mod_lt _ (by omega)
        have m2 : n % 64 < 64 := Nat.mod_lt _ (by omega)
        simp only [List.headD, List.tail, List.cons_append, List.nil_append, utf8Step]
        rw [if_neg (by omega), if_neg (by omega), if_neg (by omega), if_pos (by omega)]
        rw [if_pos (by constructor <;> omega)]
        have : (224 + n / 4096 - 224) * 4096 + (128 + n / 64 % 64 - 128) * 64
            + (128 + n % 64 - 128) = n := by
          have e1 := Nat.div_add_mod n 64
          have e2 := Nat.div_add_mod (n / 64) 64
          have e3 : n / 64 / 64 = n / 4096 := by
            rw [Nat.div_div_eq_div_mul]
          omega
        rw [this]
      · simp only [utf8EncodeChar, if_neg h1, if_neg h2, if_neg h3]
        have d1 : n / 262144 < 8 := by omega
        have m0 : n / 4096 % 64 < 64 := Nat.mod_lt _ (by omega)
        have m1 : n / 64 % 64 < 64 := Nat.mod_lt _ (by omega)
        have m2 : n % 64 < 64 := Nat.mod_lt _ (by omega)
        simp only [List.headD, List.tail, List.cons_append, List.nil_append, utf8Step]
        rw [if_neg (by omega), if_neg (by omega), if_neg (by omega), if_neg (by omega)]
        rw [if_pos (by refine ⟨⟨?_, ?_⟩, ⟨?_, ?_⟩, ?_, ?_⟩ <;> omega)]
        have : (240 + n / 262144 - 240) * 262144 + (128 + n / 4096 % 64 - 128) * 4096
            + (128 + n / 64 % 64 - 128) * 64 + (128 + n % 64 - 128) = n := by
          have e1 := Nat.div_add_mod n 64
          have e2 := Nat.div_add_mod (n / 64) 64
          have e3 := Nat.div_add_mod (n / 4096) 64
          have e4 : n / 64 / 64 = n / 4096 := by rw [Nat.div_div_eq_div_mul]
          have e5 : n / 4096 / 64 = n / 262144 := by rw [Nat.div_div_eq_div_mul]
          omega
        rw [this]

theorem utf8EncodeChar_ne_nil (n : Nat) : utf8EncodeChar n ≠ [] := by
  unfold utf8EncodeChar
  split_ifs <;> simp

theorem utf8Decode_encode_cons (n : Nat) (hn : n < 1114112) (rest : Bytes) :
    utf8Decode (utf8EncodeChar n ++ rest) = n :: utf8Decode rest := by
  have hne := utf8EncodeChar_ne_nil n
  have hcons : utf8EncodeChar n ++ rest
      = (utf8EncodeChar n).headD 0 :: ((utf8EncodeChar n).tail ++ rest) := by
    cases h : utf8EncodeChar n with
    | nil => exact absurd h hne
    | cons x xs => simp
  unfold utf8Decode
  rw [hcons]
  have hlen : ((utf8EncodeChar n).tail ++ rest).length + 1
      = ((utf8EncodeChar n).headD 0 :: ((utf8EncodeChar n).tail ++ rest)).length := by simp
  simp only [List.length_cons, utf8DecodeGo, utf8Step_encode n hn rest]
  exact congrArg (n :: ·) (utf8DecodeGo_fuel _ _ (by simp))

theorem char_toNat_lt (c : Char) : c.toNat < 1114112 := by
  have he : c.toNat = c.val.toNat := rfl
  rcases c.valid with h | h <;> omega

theorem bufToStr_utf8Str (s : JStr) : bufToStr (utf8Str s) = s := by
  unfold bufToStr
  induction s with
  | nil => rfl
  | cons c cs ih =>
    show (utf8Decode (utf8EncodeChar c.toNat ++ utf8Str cs)).map Char.ofNat = c :: cs
    rw [utf8Decode_encode_cons c.toNat (char_toNat_lt c)]
    simp only [List.map_cons]
    rw [Char.ofNat_toNat]
    exact congrArg (c :: ·) ih

/-! ### `splitChar` and header lemmas -/

theorem splitChar_sep_cons (sep : Char) (l : JStr) :
    splitChar sep (sep :: l) = [] :: splitChar sep l := by
  simp [splitChar]

theorem splitChar_append_sep {sep : Char} : ∀ {A : JStr} (B : JStr), sep ∉ A →
    splitChar sep (A ++ sep :: B) = A :: splitChar sep B
  | [], B, _ => splitChar_sep_cons sep B
  | c :: A', B, h => by
    have hc : c ≠ sep := fun hh => h (hh ▸ List.mem_cons_self c A')
    have hA' : sep ∉ A' := fun hh => h (List.mem_cons_of_mem c hh)
    simp only [List.cons_append, splitChar, if_neg hc, List.append_eq]
    rw [splitChar_append_sep B hA']

theorem splitChar_no_sep {sep : Char} : ∀ {A : JStr}, sep ∉ A → splitChar sep A = [A]
  | [], _ => rfl
  | c :: A', h => by
    have hc : c ≠ sep := fun hh => h (hh ▸ List.mem_cons_self c A')
    have hA' : sep ∉ A' := fun hh => h (List.mem_cons_of_mem c hh)
    simp only [splitChar, if_neg hc]
    rw [splitChar_no_sep hA']

theorem findIdx?_zero_sep : ∀ {A : Bytes} (B : Bytes), 0 ∉ A →
    (A ++ 0 :: B).findIdx? (· = 0) = some A.length
  | [], B, _ => by simp
  | a :: A', B, h => by
    have ha : a ≠ 0 := fun hh => h (hh ▸ List.mem_cons_self a A')
    have hA' : (0 : Nat) ∉ A' := fun hh => h (List.mem_cons_of_mem a hh)
    rw [List.cons_append, List.findIdx?_cons]
    simp only [decide_eq_true_eq, ha, if_false]
    rw [List.findIdx?_succ, findIdx?_zero_sep B hA']
    simp

theorem natToCharsGo_digits : ∀ (f n : Nat), ∀ c ∈ natToCharsGo f n,
    48 ≤ c.toNat ∧ c.toNat ≤ 57
  | 0, _, c, hc => by simp [natToCharsGo] at hc
  | f + 1, n, c, hc => by
    simp only [natToCharsGo] at hc
    split at hc
    · have : c = digitChar n := by simpa using hc
      subst this
      unfold digitChar
      rw [toNat_ofNat_valid (48 + n) (Or.inl (by omega))]
      omega
    · rcases List.mem_append.mp hc with h | h
      · exact natToCharsGo_digits f (n / 10) c h
      · have : c = digitChar (n % 10) := by simpa using h
        subst this
        unfold digitChar
        have : n % 10 < 10 := Nat.mod_lt _ (by omega)
        rw [toNat_ofNat_valid (48 + n % 10) (Or.inl (by omega))]
        omega

theorem natToChars_digits (n : Nat) : ∀ c ∈ natToChars n, 48 ≤ c.toNat ∧ c.toNat ≤ 57 :=
  natToCharsGo_digits (n + 1) n

theorem hexChar_range (d : Nat) (hd : d < 16) :
    (48 ≤ (hexChar d).toNat ∧ (hexChar d).toNat ≤ 57)
    ∨ (97 ≤ (hexChar d).toNat ∧ (hexChar d).toNat ≤ 102) := by
  unfold hexChar
  split
  · rw [toNat_ofNat_valid _ (Or.inl (by omega))]; omega
  · rw [toNat_ofNat_valid _ (Or.inl (by omega))]; omega

theorem sha1Hex_chars (b : Bytes) : ∀ c ∈ sha1Hex b,
    (48 ≤ c.toNat ∧ c.toNat ≤ 57) ∨ (97 ≤ c.toNat ∧ c.toNat ≤ 102) := by
  intro c hc
  unfold sha1Hex at hc
  rcases hw : sha1Words b with ⟨a, b', c', d', e'⟩
  rw [hw] at hc
  have key : ∀ (w : Nat), c ∈ wordHex w →
      (48 ≤ c.toNat ∧ c.toNat ≤ 57) ∨ (97 ≤ c.toNat ∧ c.toNat ≤ 102) := by
    intro w hcw
    unfold wordHex at hcw
    simp only [List.mem_cons, List.not_mem_nil, or_false] at hcw
    rcases hcw with h | h | h | h | h | h | h | h <;>
      (subst h; exact hexChar_range _ (Nat.mod_lt _ (by omega)))
  simp only [List.mem_append] at hc
  rcases hc with ((((h | h) | h) | h) | h) <;> exact key _ h

theorem sha1Hex_no_newline (b : Bytes) : '\n' ∉ sha1Hex b := by
  intro h
  have h2 := sha1Hex_chars b _ h
  have h3 : ('\n').toNat = 10 := rfl
  omega

/-! ### Retrieval of freshly stored objects -/

theorem lookupStr_insert {α : Type} (m : List (JStr × α)) (k : JStr) (v : α) :
    lookupStr (insertStr m k v) k = some v := by
  unfold lookupStr insertStr
  rw [List.find?_cons_of_pos _ (by simp)]
  rfl

theorem insertStr_idem {α : Type} (m : List (JStr × α)) (k : JStr) (v : α) :
    insertStr (insertStr m k v) k v = insertStr m k v := by
  unfold insertStr
  simp [List.filter_filter]

theorem utf8Str_no_zero : ∀ {s : JStr}, (∀ c ∈ s, 0 < c.toNat) → 0 ∉ utf8Str s
  | [], _ => by simp [utf8Str]
  | c :: cs, h => by
    simp only [utf8Str, List.mem_append]
    push_neg
    exact ⟨utf8EncodeChar_ne_zero (h c (by simp)),
      utf8Str_no_zero (fun d hd => h d (by simp [hd]))⟩

theorem normIdx_zero (len : Nat) : normIdx len 0 = 0 := by
  unfold normIdx
  rw [if_neg (by omega)]
  simp

theorem normIdx_cast_le (len n : Nat) (h : n ≤ len) : normIdx len (n : Int) = n := by
  unfold normIdx
  rw [if_neg (by omega)]
  simp [h]

theorem normIdx_cast_add_one (len n : Nat) (h : n + 1 ≤ len) :
    normIdx len ((n : Int) + 1) = n + 1 := by
  unfold normIdx
  rw [if_neg (by omega)]
  have : ((n : Int) + 1).toNat = n + 1 := by omega
  rw [this]
  simp [h]

theorem nullIdx_sep (A B : Bytes) (h0 : 0 ∉ A) : nullIdx (A ++ 0 :: B) = (A.length : Int) := by
  unfold nullIdx
  rw [findIdx?_zero_sep _ h0]

theorem jsSlice_prefix (A B : Bytes) (b : Nat) :
    jsSlice (A ++ b :: B) 0 (A.length : Int) = A := by
  unfold jsSlice
  rw [normIdx_cast_le _ _ (by simp), normIdx_zero, List.take_left, List.drop_zero]

theorem jsSlice_suffix (A B : Bytes) (b : Nat) :
    jsSlice (A ++ b :: B) ((A.length : Int) + 1) ((A ++ b :: B).length : Int) = B := by
  unfold jsSlice
  rw [normIdx_cast_le _ _ (le_refl _), List.take_length,
    normIdx_cast_add_one _ _ (by simp)]
  have h3 : A ++ b :: B = (A ++ [b]) ++ B := by simp
  have h4 : A.length + 1 = (A ++ [b]).length := by simp
  rw [h3, h4, List.drop_left]

/-- Parsing the buffer just encoded by `storeObject` recovers the kind,
the declared length, and the payload bytes, provided the kind has no NUL
and no space (true of `blob`, `tree`, `commit`). -/
theorem parseObjectBuf_encode (tp : JStr) (content : JSVal)
    (htp : ∀ c ∈ tp, 0 < c.toNat ∧ c ≠ ' ') :
    parseObjectBuf (encodeObject tp content)
      = { type := tp, size := parseIntOpt (natToChars (jsLen content))
          content := jsBytes content } := by
  have hA : ∀ c ∈ tp ++ js " " ++ natToChars (jsLen content), 0 < c.toNat := by
    intro c hc
    simp only [List.mem_append] at hc
    rcases hc with (hc | hc) | hc
    · exact (htp c hc).1
    · have hce : c = ' ' := by simpa [js] using hc
      subst hce; decide
    · have := natToChars_digits (jsLen content) c hc
      omega
  have h0 : 0 ∉ utf8Str (tp ++ js " " ++ natToChars (jsLen content)) := utf8Str_no_zero hA
  have hsp : (' ' : Char) ∉ tp := fun hmem => (htp ' ' hmem).2 rfl
  have hspd : (' ' : Char) ∉ natToChars (jsLen content) := by
    intro hmem
    have := natToChars_digits (jsLen content) _ hmem
    have h32 : (' ').toNat = 32 := rfl
    omega
  have hsplit : tp ++ js " " ++ natToChars (jsLen content)
      = tp ++ ' ' :: natToChars (jsLen content) := by simp [js]
  unfold parseObjectBuf encodeObject
  rw [nullIdx_sep _ _ h0, jsSlice_prefix, jsSlice_suffix, bufToStr_utf8Str, hsplit,
    splitChar_append_sep _ hsp, splitChar_no_sep hspd]
  rfl

theorem getObject_insert_fresh (os : Objects) (k tp : JStr) (content : JSVal)
    (htp : ∀ c ∈ tp, 0 < c.toNat ∧ c ≠ ' ') :
    getObject (insertStr os k (encodeObject tp content)) k
      = .ok { type := tp, size := parseIntOpt (natToChars (jsLen content))
              content := jsBytes content } := by
  unfold getObject
  rw [lookupStr_insert]
  show (Except.ok (parseObjectBuf (encodeObject tp content)) : Except Err ObjRec) = _
  rw [parseObjectBuf_encode tp content htp]

/-! ### Parsing the freshly created commit object -/

theorem commitScan_cons_ne (acc : CommitData) (i : Nat) (line : JStr) (ls : List JStr)
    (h : line.isEmpty = false) :
    commitScan acc i (line :: ls) = commitScan (commitLineUpdate acc line) (i + 1) ls := by
  simp [commitScan, h]

theorem commitScan_cons_nil (acc : CommitData) (i : Nat) (ls : List JStr) :
    commitScan acc i ([] :: ls) = (acc, i + 1) := by
  simp [commitScan, List.isEmpty]

theorem clu_tree (acc : CommitData) (th : JStr) :
    commitLineUpdate acc (js "tree " ++ th) = { acc with tree := some th } := rfl

theorem clu_parent (acc : CommitData) (p : JStr) :
    commitLineUpdate acc (js "parent " ++ p) = { acc with parent := some p } := rfl

theorem clu_author_parent (acc : CommitData) (r : JStr) :
    (commitLineUpdate acc (js "author " ++ r)).parent = acc.parent := by
  have h1 : strStarts (js "tree ") (js "author " ++ r) = false := rfl
  have h2 : strStarts (js "parent ") (js "author " ++ r) = false := rfl
  have h3 : strStarts (js "author ") (js "author " ++ r) = true := rfl
  have h4 : (js "author " ++ r).drop 7 = r := rfl
  simp only [commitLineUpdate, h1, h2, h3, h4, Bool.false_eq_true, if_false, if_true]
  rcases hA : regexATZ r with _ | ⟨a', d', g'⟩ <;> simp [hA]

theorem clu_committer_parent (acc : CommitData) (r : JStr) :
    (commitLineUpdate acc (js "committer " ++ r)).parent = acc.parent := by
  have h1 : strStarts (js "tree ") (js "committer " ++ r) = false := rfl
  have h2 : strStarts (js "parent ") (js "committer " ++ r) = false := rfl
  have h3 : strStarts (js "author ") (js "committer " ++ r) = false := rfl
  have h4 : strStarts (js "committer ") (js "committer " ++ r) = true := rfl
  have h5 : (js "committer " ++ r).drop 10 = r := rfl
  simp only [commitLineUpdate, h1, h2, h3, h4, h5, Bool.false_eq_true, if_false, if_true]
  rcases hA : regexATZ r with _ | ⟨a', d', g'⟩ <;> simp [hA]

theorem newline_not_mem_natToChars (ts : Nat) : '\n' ∉ natToChars ts := by
  intro hm
  have h10 : ('\n').toNat = 10 := rfl
  have := natToChars_digits ts _ hm
  omega

/-- The author (and committer) line of the canonical commit text. -/
def atzLine (pre a : JStr) (ts : Nat) : JStr :=
  pre ++ a ++ js " " ++ natToChars ts ++ js " +0000"

theorem newline_not_mem_atzLine (pre a : JStr) (ts : Nat)
    (hpre : '\n' ∉ pre) (ha : '\n' ∉ a) : '\n' ∉ atzLine pre a ts := by
  unfold atzLine
  simp only [List.mem_append]
  push_neg
  refine ⟨⟨⟨⟨hpre, ha⟩, by decide⟩, newline_not_mem_natToChars ts⟩, by decide⟩

/-- Line decomposition of the canonical commit text with a truthy parent. -/
theorem commitText_lines_some (th : JStr) (c : Char) (cs m a : JStr) (ts : Nat)
    (hth : '\n' ∉ th) (ha : '\n' ∉ a) (hp : '\n' ∉ c :: cs) :
    splitChar '\n' (commitText th (some (c :: cs)) m a ts)
      = (js "tree " ++ th) :: (js "parent " ++ c :: cs)
        :: atzLine (js "author ") a ts :: atzLine (js "committer ") a ts
        :: [] :: splitChar '\n' (m ++ ['\n']) := by
  have htext : commitText th (some (c :: cs)) m a ts
      = (js "tree " ++ th) ++ '\n' :: ((js "parent " ++ c :: cs) ++ '\n'
        :: (atzLine (js "author ") a ts ++ '\n'
        :: (atzLine (js "committer ") a ts ++ '\n'
        :: ('\n' :: (m ++ ['\n']))))) := by
    have htru : jsTruthy (some (c :: cs)) = true := rfl
    have e1 : js "\n" = ['\n'] := rfl
    have e2 : js " +0000\n" = js " +0000" ++ ['\n'] := rfl
    simp only [commitText, atzLine, htru, if_true, Option.getD_some, e1, e2,
      List.append_assoc, List.singleton_append, List.cons_append, List.nil_append]
  rw [htext]
  rw [splitChar_append_sep _ (by
    simp only [List.mem_append]
    push_neg
    exact ⟨by decide, hth⟩)]
  rw [splitChar_append_sep _ (by
    simp only [List.mem_append]
    push_neg
    exact ⟨by decide, hp⟩)]
  rw [splitChar_append_sep _ (newline_not_mem_atzLine _ _ _ (by decide) ha)]
  rw [splitChar_append_sep _ (newline_not_mem_atzLine _ _ _ (by decide) ha)]
  rw [splitChar_sep_cons]

/-- Line decomposition of the canonical commit text with no parent. -/
theorem commitText_lines_none (th m a : JStr) (ts : Nat)
    (hth : '\n' ∉ th) (ha : '\n' ∉ a) :
    splitChar '\n' (commitText th none m a ts)
      = (js "tree " ++ th)
        :: atzLine (js "author ") a ts :: atzLine (js "committer ") a ts
        :: [] :: splitChar '\n' (m ++ ['\n']) := by
  have htext : commitText th none m a ts
      = (js "tree " ++ th) ++ '\n'
        :: (atzLine (js "author ") a ts ++ '\n'
        :: (atzLine (js "committer ") a ts ++ '\n'
        :: ('\n' :: (m ++ ['\n'])))) := by
    have e1 : js "\n" = ['\n'] := rfl
    have e2 : js " +0000\n" = js " +0000" ++ ['\n'] := rfl
    simp only [commitText, atzLine, jsTruthy, if_false, Bool.false_eq_true, e1, e2,
      List.append_assoc, List.singleton_append, List.cons_append, List.nil_append]
  rw [htext]
  rw [splitChar_append_sep _ (by
    simp only [List.mem_append]
    push_neg
    exact ⟨by decide, hth⟩)]
  rw [splitChar_append_sep _ (newline_not_mem_atzLine _ _ _ (by decide) ha)]
  rw [splitChar_append_sep _ (newline_not_mem_atzLine _ _ _ (by decide) ha)]
  rw [splitChar_sep_cons]

theorem commitScan_parent_some (th : JStr) (c : Char) (cs : JStr) (a : JStr) (ts : Nat)
    (rest : List JStr) :
    (commitScan emptyCommitData 0 ((js "tree " ++ th) :: (js "parent " ++ c :: cs)
      :: atzLine (js "author ") a ts :: atzLine (js "committer ") a ts
      :: [] :: rest)).1.parent = some (c :: cs) := by
  rw [commitScan_cons_ne _ _ (js "tree " ++ th) _ rfl, clu_tree]
  rw [commitScan_cons_ne _ _ (js "parent " ++ c :: cs) _ rfl, clu_parent]
  rw [commitScan_cons_ne _ _ (atzLine (js "author ") a ts) _ rfl]
  rw [commitScan_cons_ne _ _ (atzLine (js "committer ") a ts) _ rfl]
  rw [commitScan_cons_nil]
  show (commitLineUpdate (commitLineUpdate _ (js "author " ++ _)) (js "committer " ++ _)).parent
    = _
  rw [clu_committer_parent, clu_author_parent]

theorem commitScan_parent_none (th : JStr) (a : JStr) (ts : Nat) (rest : List JStr) :
    (commitScan emptyCommitData 0 ((js "tree " ++ th)
      :: atzLine (js "author ") a ts :: atzLine (js "committer ") a ts
      :: [] :: rest)).1.parent = none := by
  rw [commitScan_cons_ne _ _ (js "tree " ++ th) _ rfl, clu_tree]
  rw [commitScan_cons_ne _ _ (atzLine (js "author ") a ts) _ rfl]
  rw [commitScan_cons_ne _ _ (atzLine (js "committer ") a ts) _ rfl]
  rw [commitScan_cons_nil]
  show (commitLineUpdate (commitLineUpdate _ (js "author " ++ _)) (js "committer " ++ _)).parent
    = _
  rw [clu_committer_parent, clu_author_parent]
  rfl

theorem getCommitParse_ok (k ty : JStr) (sz : Option Nat) (content : Bytes)
    (hty : ty = js "commit") :
    ∃ cd, getCommitParse k { type := ty, size := sz, content := content } = .ok cd
      ∧ cd.parent = (commitScan emptyCommitData 0
          (splitChar '\n' (bufToStr content))).1.parent := by
  subst hty
  unfold getCommitParse
  rw [if_neg (fun hne => hne rfl)]
  exact ⟨_, rfl, rfl⟩

/-- The parent field recovered from the canonical commit text. -/
theorem commitScan_commitText_parent (th m a : JStr) (ts : Nat) (p? : Option JStr)
    (hth : '\n' ∉ th) (ha : '\n' ∉ a)
    (hp : ∀ p, p? = some p → '\n' ∉ p ∧ p ≠ []) :
    (commitScan emptyCommitData 0
      (splitChar '\n' (commitText th p? m a ts))).1.parent = p? := by
  match p? with
  | none =>
    rw [commitText_lines_none th m a ts hth ha, commitScan_parent_none]
  | some p =>
    obtain ⟨hpn, hpe⟩ := hp p rfl
    match p with
    | [] => exact absurd rfl hpe
    | c :: cs =>
      rw [commitText_lines_some th c cs m a ts hth ha hpn, commitScan_parent_some]

theorem getCommit_insert_eq (os : Objects) (k th m a : JStr) (ts : Nat) (p? : Option JStr) :
    getCommit (insertStr os k
      (encodeObject (js "commit") (.str (commitText th p? m a ts)))) k
      = getCommitParse k
        { type := js "commit"
          size := parseIntOpt (natToChars (jsLen (.str (commitText th p? m a ts))))
          content := jsBytes (.str (commitText th p? m a ts)) } := by
  unfold getCommit
  rw [getObject_insert_fresh os k (js "commit") _ (by decide)]

theorem getCommitParse_commitText (k th m a : JStr) (ts : Nat) (p? : Option JStr)
    (hth : '\n' ∉ th) (ha : '\n' ∉ a)
    (hp : ∀ p, p? = some p → '\n' ∉ p ∧ p ≠ []) :
    ∃ cd, getCommitParse k
        { type := js "commit"
          size := parseIntOpt (natToChars (jsLen (.str (commitText th p? m a ts))))
          content := jsBytes (.str (commitText th p? m a ts)) }
      = .ok cd ∧ cd.parent = p? := by
  obtain ⟨cd, hcd, hpar⟩ := getCommitParse_ok k (js "commit")
    (parseIntOpt (natToChars (jsLen (.str (commitText th p? m a ts)))))
    (jsBytes (.str (commitText th p? m a ts))) rfl
  rw [show (jsBytes (.str (commitText th p? m a ts))) = utf8Str (commitText th p? m a ts)
      from rfl, bufToStr_utf8Str,
    commitScan_commitText_parent th m a ts p? hth ha hp] at hpar
  exact ⟨cd, hcd, hpar⟩

/-- Reading back a freshly stored commit object yields the parent that
`createCommit` was given (`none` or a non-empty hash without newlines). -/
theorem getCommit_insert_parent (os : Objects) (k th m a : JStr) (ts : Nat)
    (p? : Option JStr)
    (hth : '\n' ∉ th) (ha : '\n' ∉ a)
    (hp : ∀ p, p? = some p → '\n' ∉ p ∧ p ≠ []) :
    ∃ cd, getCommit (insertStr os k
        (encodeObject (js "commit") (.str (commitText th p? m a ts)))) k
      = .ok cd ∧ cd.parent = p? := by
  rw [getCommit_insert_eq os k th m a ts p?]
  exact getCommitParse_commitText k th m a ts p? hth ha hp

/-! ### Behavior of `commit` -/

/-- Whether an operation returning `(result, state)` succeeded. -/
def succeeded (r : Except Err JStr × State) : Bool :=
  match r.1 with
  | .ok _ => true
  | .error _ => false

/-- The current branch's tip right before an operation (`none` both when
the branch has no commit yet and when it does not exist). -/
def tipBefore (s : State) : Option JStr :=
  match getBranchCommit s (getCurrentBranch s) with
  | .ok p => p
  | .error _ => none

theorem getBranchCommit_error_shape {s : State} {n : JStr} {e : Err}
    (h : getBranchCommit s n = .error e) : e = .noSuchBranch n := by
  unfold getBranchCommit at h
  split at h
  · exact (Except.error.inj h).symm
  · exact absurd h (by simp)

theorem getBranchCommit_ok_some_ne {s : State} {n p : JStr}
    (h : getBranchCommit s n = .ok (some p)) : p ≠ [] := by
  unfold getBranchCommit at h
  split at h
  · exact absurd h (by simp)
  · have h2 := Except.ok.inj h
    split at h2
    · exact absurd h2 (by simp)
    · rename_i hne
      intro hnil
      rw [← Option.some.inj h2] at hnil
      rw [hnil] at hne
      exact hne rfl

theorem updateBranch_error_shape {s : State} {n h : JStr} {e : Err}
    (hu : updateBranch s n h = .error e) : e = .noSuchBranch n := by
  unfold updateBranch at hu
  split at hu
  · exact absurd hu (by simp)
  · exact (Except.error.inj hu).symm

theorem updateBranch_ok_state {s : State} {n h : JStr} {s' : State}
    (hu : updateBranch s n h = .ok s') :
    s' = { s with branches := insertStr s.branches n h } := by
  unfold updateBranch at hu
  split at hu
  · exact (Except.ok.inj hu).symm
  · exact absurd hu (by simp)

/-! ### Claim theorems C4 and C5 -/

/-- C4: if `commit(message)` fails at any step after the staged entries
have been read (tree creation, parent resolution, commit-object creation,
or branch-pointer update), the Staging Index is left unchanged — it is
cleared only after the branch pointer update succeeds. -/
theorem claim_C4_commit_failure_preserves_index (s : State) (m : JStr) (t : Nat)
    (hfail : succeeded (commit s m t) = false) :
    (commit s m t).2.index = s.index := by
  simp only [commit] at hfail ⊢
  by_cases h0 : s.index.length = 0
  · rw [if_pos h0]
  · rw [if_neg h0] at hfail ⊢
    split
    · rfl
    · rename_i parent hgb
      split
      · rfl
      · rename_i s3 hub
        simp [succeeded, hgb, hub] at hfail

/-- A staged entry used to instantiate the commit theorems. -/
def stagedEntry : Entry :=
  { path := js "a.txt"
    hash := js "aaaaaaaaaaaaaaaaaaaaaaaaaaaaaaaaaaaaaaaa"
    mode := js "100644"
    size := 0
    timestamp := 7 }

/-- A repository state with `master` checked out and one staged entry,
used to instantiate the commit theorems. -/
def stagedState : State := { initState with index := [stagedEntry] }

/-- A state whose staged entry cannot be committed: HEAD names a branch
that has no file, so parent resolution fails after the tree is built. -/
def brokenHeadState : State :=
  { stagedState with head := some (js "ref: refs/heads/dev"), branches := [] }

set_option maxRecDepth 1000000 in
theorem claim_C4_witness :
    succeeded (commit brokenHeadState (js "msg") 3) = false
    ∧ (commit brokenHeadState (js "msg") 3).2.index = brokenHeadState.index :=
  ⟨by decide, claim_C4_commit_failure_preserves_index brokenHeadState (js "msg") 3 (by decide)⟩

/-- C5: `commit(message)` fails with NothingStaged if and only if the
staging index `list()` is empty (in particular, commit on a freshly
initialized repository fails with NothingStaged); after every successful
`commit()`, `list()` returns the empty sequence. -/
theorem claim_C5_nothingStaged (s : State) (m : JStr) (t : Nat) :
    ((commit s m t).1 = .error .nothingStaged ↔ s.index = [])
    ∧ (init emptyState = .ok initState ∧ (commit initState m t).1 = .error .nothingStaged)
    ∧ (succeeded (commit s m t) = true → (commit s m t).2.index = []) := by
  refine ⟨?_, ⟨by decide, rfl⟩, ?_⟩
  · simp only [commit]
    by_cases h0 : s.index.length = 0
    · rw [if_pos h0]
      exact ⟨fun _ => List.length_eq_zero.mp h0, fun _ => rfl⟩
    · rw [if_neg h0]
      have hidx : ¬s.index = [] := fun hh => h0 (by rw [hh]; rfl)
      split
      · rename_i e hgb
        have he := getBranchCommit_error_shape hgb
        subst he
        constructor
        · intro hcon
          exact absurd (Except.error.inj hcon) (by simp)
        · intro hcon
          exact absurd hcon hidx
      · split
        · rename_i e hub
          have he := updateBranch_error_shape hub
          subst he
          constructor
          · intro hcon
            exact absurd (Except.error.inj hcon) (by simp)
          · intro hcon
            exact absurd hcon hidx
        · constructor
          · intro hcon
            exact absurd hcon (by simp)
          · intro hcon
            exact absurd hcon hidx
  · simp only [commit]
    by_cases h0 : s.index.length = 0
    · rw [if_pos h0]
      intro hcon
      simp [succeeded] at hcon
    · rw [if_neg h0]
      split
      · intro hcon
        simp [succeeded] at hcon
      · split
        · intro hcon
          simp [succeeded] at hcon
        · intro _
          rfl

set_option maxRecDepth 1000000 in
theorem claim_C5_witness :
    ((commit initState (js "msg") 0).1 = .error .nothingStaged)
    ∧ succeeded (commit stagedState (js "msg") 5) = true
    ∧ (commit stagedState (js "msg") 5).2.index = [] :=
  ⟨(claim_C5_nothingStaged initState (js "msg") 0).1.mpr rfl,
   by decide,
   (claim_C5_nothingStaged stagedState (js "msg") 5).2.2 (by decide)⟩

theorem createTree_fst_no_newline (os : Objects) (e : List Entry) :
    '\n' ∉ (createTree os e).1 := by
  simp only [createTree, storeObject]
  exact sha1Hex_no_newline _

/-- C3: for every commit fingerprint `c` returned by a successful
`commit()`, `read_commit(c).parent` equals the tip of the current branch
as it was immediately before that `commit()` call, and is `none` when
that branch had no commit yet.  (The well-formedness hypothesis — the
current tip, when present, contains no newline — holds in every state
the engine itself produces, where tips are SHA-1 hex strings.) -/
theorem claim_C3_commit_parent (s : State) (m : JStr) (t : Nat)
    (hok : succeeded (commit s m t) = true)
    (hwf : ∀ p, getBranchCommit s (getCurrentBranch s) = .ok (some p) → '\n' ∉ p) :
    ∃ c cd, (commit s m t).1 = .ok c
      ∧ getCommit (commit s m t).2.objects c = .ok cd
      ∧ cd.parent = tipBefore s := by
  simp only [commit] at hok ⊢
  by_cases h0 : s.index.length = 0
  · rw [if_pos h0] at hok
    simp [succeeded] at hok
  · rw [if_neg h0] at hok ⊢
    split
    · rename_i e heq1
      simp [succeeded, heq1] at hok
    · rename_i parent heq1
      split
      · rename_i e heq2
        simp [succeeded, heq1, heq2] at hok
      · rename_i s3 heq2
        have hs3 := updateBranch_ok_state heq2
        subst hs3
        have heq1' : getBranchCommit s (getCurrentBranch s) = .ok parent := heq1
        have htip : tipBefore s = parent := by
          unfold tipBefore
          rw [heq1']
        have hp : ∀ p', parent = some p' → '\n' ∉ p' ∧ p' ≠ [] := by
          intro p' hpe
          subst hpe
          exact ⟨hwf p' heq1', getBranchCommit_ok_some_ne heq1'⟩
        obtain ⟨cd, hcd, hpar⟩ := getCommit_insert_parent
          ((createTree s.objects s.index).2)
          (sha1Hex (encodeObject (js "commit")
            (.str (commitText ((createTree s.objects s.index).1) parent m theAuthor t))))
          ((createTree s.objects s.index).1) m theAuthor t parent
          (createTree_fst_no_newline s.objects s.index) (by decide) hp
        refine ⟨_, cd, rfl, ?_, hpar.trans htip.symm⟩
        show getCommit ((createCommit ((createTree s.objects s.index).2)
            ((createTree s.objects s.index).1) parent m theAuthor t).2)
          ((createCommit ((createTree s.objects s.index).2)
            ((createTree s.objects s.index).1) parent m theAuthor t).1) = .ok cd
        simp only [createCommit, storeObject]
        exact hcd

set_option maxRecDepth 1000000 in
theorem claim_C3_witness :
    succeeded (commit stagedState (js "msg") 5) = true
    ∧ (∃ c cd, (commit stagedState (js "msg") 5).1 = .ok c
        ∧ getCommit (commit stagedState (js "msg") 5).2.objects c = .ok cd
        ∧ cd.parent = tipBefore stagedState) :=
  ⟨by decide, claim_C3_commit_parent stagedState (js "msg") 5 (by decide)
    (fun _ hp => Option.noConfusion (Except.ok.inj hp))⟩

/-! ### Claim C8: history -/

/-- A fully materialized parent chain in the object store: each hash is
truthy and parses as a commit whose parent links to the rest; the final
parent is falsy (`null` in practice).  A repository whose tip reaches
exactly `n` commits is one with a `Chain` of length `n` from the tip. -/
inductive Chain (s : State) : Option JStr → List (JStr × CommitData) → Prop where
  | nil : ∀ {co : Option JStr}, jsTruthy co = false → Chain s co []
  | cons : ∀ {h : JStr} {cd : CommitData} {l : List (JStr × CommitData)},
      jsTruthy (some h) = true → getCommit s.objects h = .ok cd →
      Chain s cd.parent l → Chain s (some h) ((h, cd) :: l)

theorem logLoop_chain (s : State) : ∀ (n : Nat) (co : Option JStr)
    (l : List (JStr × CommitData)), Chain s co l → logLoop s n co = .ok (l.take n)
  | 0, _, _, hch => by
    cases hch <;> rfl
  | n + 1, co, l, hch => by
    cases hch with
    | nil hfalse => simp [logLoop, hfalse]
    | cons htr hget hch' =>
      rename_i h cd l'
      simp only [logLoop, htr, if_true, hget]
      rw [logLoop_chain s n cd.parent l' hch']
      rfl

/-- C8: for every repository whose current branch tip reaches exactly `n`
commits via the parent chain, and for every limit, `history(limit)`
terminates and returns exactly `min(limit, n)` commit views, ordered
most-recent-first starting at the current branch's tip and following
parent fingerprints. -/
theorem claim_C8_history (s : State) (count : Nat) (tip : Option JStr)
    (l : List (JStr × CommitData))
    (hgb : getBranchCommit s (getCurrentBranch s) = .ok tip)
    (hch : Chain s tip l) :
    log s count = .ok (l.take count)
    ∧ (l.take count).length = min count l.length := by
  constructor
  · unfold log
    rw [hgb]
    cases tip with
    | none =>
      cases hch with
      | nil _ => simp
    | some h => exact logLoop_chain s count (some h) l hch
  · exact List.length_take count l

/-- First handcrafted commit object: the buffer parses with parent `bb`. -/
def c8cd1 : CommitData :=
  { tree := none, parent := some (js "bb"), author := none, committer := none
    message := js "parent bb", date := none }

/-- Second handcrafted commit object: no parent line. -/
def c8cd2 : CommitData :=
  { tree := none, parent := none, author := none, committer := none
    message := js "x", date := none }

/-- A repository whose `master` tip `aa` reaches exactly two commits. -/
def c8State : State :=
  { objects := [(js "aa", utf8Str (js "commit 9") ++ 0 :: utf8Str (js "parent bb")),
                (js "bb", utf8Str (js "commit 1") ++ 0 :: utf8Str (js "x"))]
    index := [], head := some (js "ref: refs/heads/master")
    branches := [(js "master", js "aa")] }

theorem c8Chain : Chain c8State (some (js "aa")) [(js "aa", c8cd1), (js "bb", c8cd2)] :=
  Chain.cons (by decide) (by decide)
    (Chain.cons (by decide) (by decide) (Chain.nil (by decide)))

theorem claim_C8_witness :
    getBranchCommit c8State (getCurrentBranch c8State) = .ok (some (js "aa"))
    ∧ log c8State 1 = .ok ([(js "aa", c8cd1), (js "bb", c8cd2)].take 1)
    ∧ ([(js "aa", c8cd1), (js "bb", c8cd2)].take 1).length
        = min 1 [(js "aa", c8cd1), (js "bb", c8cd2)].length :=
  ⟨by decide,
   (claim_C8_history c8State 1 (some (js "aa")) [(js "aa", c8cd1), (js "bb", c8cd2)]
     (by decide) c8Chain).1,
   (claim_C8_history c8State 1 (some (js "aa")) [(js "aa", c8cd1), (js "bb", c8cd2)]
     (by decide) c8Chain).2⟩

/-! ### Claim C9: staging index invariants -/

/-- A staging mutation (Index.js `add`, `remove`, `clear`). -/
inductive IdxOp where
  | add (path fp : JStr) (now : Nat)
  | remove (path : JStr)
  | clear

/-- One staging operation as it affects the persisted index; a `remove`
that throws NotStaged leaves the index file unwritten. -/
def applyOp (entries : List Entry) : IdxOp → List Entry
  | .add p fp now => indexAdd entries p fp now
  | .remove p =>
    match indexRemove entries p with
    | .ok l => l
    | .error _ => entries
  | .clear => []

/-- The index contents after a sequence of staging operations on a fresh
repository. -/
def applyOps (ops : List IdxOp) : List Entry := ops.foldl applyOp []

theorem indexAdd_nodup (entries : List Entry) (p fp : JStr) (n : Nat)
    (h : (entries.map Entry.path).Nodup) :
    ((indexAdd entries p fp n).map Entry.path).Nodup := by
  unfold indexAdd
  have hperm := (sortEntries_perm (entries.filter (fun e => decide (e.path ≠ p))
    ++ [{ path := p, hash := fp, mode := js "100644", size := 0, timestamp := n }])).map
    Entry.path
  rw [List.Perm.nodup_iff hperm]
  rw [List.map_append]
  rw [List.nodup_append]
  refine ⟨((List.filter_sublist entries).map Entry.path).nodup h, by simp, ?_⟩
  intro a ha
  obtain ⟨x, hx, rfl⟩ := List.mem_map.mp ha
  have hxne : x.path ≠ p := by
    have := (List.mem_filter.mp hx).2
    simpa using this
  simp [hxne]

theorem applyOp_remove_eq (entries : List Entry) (p : JStr) :
    applyOp entries (.remove p) = entries
    ∨ applyOp entries (.remove p) = entries.filter (fun e => decide (e.path ≠ p)) := by
  by_cases hc : (entries.filter (fun e => decide (e.path ≠ p))).length = entries.length
  · left
    show (match indexRemove entries p with | .ok l => l | .error _ => entries) = entries
    simp only [indexRemove]
    rw [if_pos hc]
  · right
    show (match indexRemove entries p with | .ok l => l | .error _ => entries) = _
    simp only [indexRemove]
    rw [if_neg hc]

theorem applyOp_inv (entries : List Entry) (op : IdxOp)
    (h : List.Sorted entryLe entries ∧ (entries.map Entry.path).Nodup) :
    List.Sorted entryLe (applyOp entries op)
      ∧ ((applyOp entries op).map Entry.path).Nodup := by
  cases op with
  | add p fp n => exact ⟨sortEntries_sorted _, indexAdd_nodup entries p fp n h.2⟩
  | remove p =>
    rcases applyOp_remove_eq entries p with h' | h' <;> rw [h']
    · exact h
    · exact ⟨h.1.filter _, ((List.filter_sublist entries).map Entry.path).nodup h.2⟩
  | clear => exact ⟨List.sorted_nil, List.nodup_nil⟩

theorem foldl_applyOp_inv (ops : List IdxOp) : ∀ (e : List Entry),
    (List.Sorted entryLe e ∧ (e.map Entry.path).Nodup) →
    List.Sorted entryLe (ops.foldl applyOp e)
      ∧ ((ops.foldl applyOp e).map Entry.path).Nodup := by
  induction ops with
  | nil => intro e h; exact h
  | cons op ops ih =>
    intro e h
    exact ih (applyOp e op) (applyOp_inv e op h)

theorem indexAdd_filter_path (entries : List Entry) (p fp : JStr) (n : Nat) :
    (indexAdd entries p fp n).filter (fun x => decide (x.path = p))
      = [{ path := p, hash := fp, mode := js "100644", size := 0, timestamp := n }] := by
  unfold indexAdd
  have hperm := (sortEntries_perm (entries.filter (fun e => decide (e.path ≠ p))
    ++ [{ path := p, hash := fp, mode := js "100644", size := 0, timestamp := n }])).filter
    (fun x => decide (x.path = p))
  rw [List.filter_append] at hperm
  have h1 : (entries.filter (fun e => decide (e.path ≠ p))).filter
      (fun x => decide (x.path = p)) = [] := by
    rw [List.filter_eq_nil_iff]
    intro a ha
    have := (List.mem_filter.mp ha).2
    simpa using this
  have h2 : List.filter (fun (x : Entry) => decide (x.path = p))
      ([{ path := p, hash := fp, mode := js "100644", size := 0, timestamp := n }] : List Entry)
      = [{ path := p, hash := fp, mode := js "100644", size := 0, timestamp := n }] := by
    rw [List.filter_cons]
    simp
  rw [h1, h2, List.nil_append] at hperm
  exact List.perm_singleton.mp hperm

theorem indexAdd_length (entries : List Entry) (p fp : JStr) (n : Nat) :
    (indexAdd entries p fp n).length
      = (entries.filter (fun e => decide (e.path ≠ p))).length + 1 := by
  have := (sortEntries_perm (entries.filter (fun e => decide (e.path ≠ p))
    ++ [{ path := p, hash := fp, mode := js "100644", size := 0, timestamp := n }])).length_eq
  simpa [indexAdd] using this

theorem filter_ne_indexAdd (entries : List Entry) (p fp : JStr) (n : Nat) :
    ((indexAdd entries p fp n).filter (fun e => decide (e.path ≠ p))).length
      = (entries.filter (fun e => decide (e.path ≠ p))).length := by
  unfold indexAdd
  have hperm := (sortEntries_perm (entries.filter (fun e => decide (e.path ≠ p))
    ++ [{ path := p, hash := fp, mode := js "100644", size := 0, timestamp := n }])).filter
    (fun e => decide (e.path ≠ p))
  have hlen := hperm.length_eq
  rw [List.filter_append] at hlen
  have h1 : (entries.filter (fun e => decide (e.path ≠ p))).filter
      (fun e => decide (e.path ≠ p)) = entries.filter (fun e => decide (e.path ≠ p)) := by
    have hfn : (fun (e : Entry) => decide (e.path ≠ p) && decide (e.path ≠ p))
        = fun (e : Entry) => decide (e.path ≠ p) := by
      funext e
      cases decide (e.path ≠ p) <;> rfl
    rw [List.filter_filter, hfn]
  have h2 : List.filter (fun (e : Entry) => decide (e.path ≠ p))
      ([{ path := p, hash := fp, mode := js "100644", size := 0, timestamp := n }] : List Entry)
      = [] := by
    rw [List.filter_cons]
    simp
  rw [h1, h2, List.append_nil] at hlen
  exact hlen

/-- C9: after every sequence of staging operations the index has at most
one entry per path and `list()` is in ascending path order; `add` then
`list()` yields exactly one entry for the path with the given
fingerprint, and a second `add` for the same path replaces the entry
rather than duplicating it. -/
theorem claim_C9_index_invariants (ops : List IdxOp) (p fp fp₁ fp₂ : JStr) (n n₁ n₂ : Nat) :
    (List.Sorted entryLe (applyOps ops) ∧ ((applyOps ops).map Entry.path).Nodup)
    ∧ (applyOps (ops ++ [.add p fp n])).filter (fun x => decide (x.path = p))
        = [{ path := p, hash := fp, mode := js "100644", size := 0, timestamp := n }]
    ∧ (applyOps (ops ++ [.add p fp₁ n₁, .add p fp₂ n₂])).filter
          (fun x => decide (x.path = p))
        = [{ path := p, hash := fp₂, mode := js "100644", size := 0, timestamp := n₂ }]
    ∧ (applyOps (ops ++ [.add p fp₁ n₁, .add p fp₂ n₂])).length
        = (applyOps (ops ++ [.add p fp₁ n₁])).length := by
  refine ⟨foldl_applyOp_inv ops [] ⟨List.sorted_nil, List.nodup_nil⟩, ?_, ?_, ?_⟩
  · unfold applyOps
    rw [List.foldl_append]
    exact indexAdd_filter_path _ p fp n
  · unfold applyOps
    rw [List.foldl_append]
    exact indexAdd_filter_path _ p fp₂ n₂
  · unfold applyOps
    rw [List.foldl_append, List.foldl_append]
    show (indexAdd (indexAdd _ p fp₁ n₁) p fp₂ n₂).length = (indexAdd _ p fp₁ n₁).length
    rw [indexAdd_length, filter_ne_indexAdd, ← indexAdd_length]

/-! ### Claim C2: tree permutation invariance -/

/-- Two staged entries with the same path but different fingerprints:
`Array.prototype.sort` is stable, so the two input orders survive the
sort and produce different tree contents. -/
def dupA : Entry :=
  { path := js "a", hash := js "0000000000000000000000000000000000000000"
    mode := js "100644", size := 0, timestamp := 0 }

/-- Second entry with the same path as `dupA`. -/
def dupB : Entry :=
  { path := js "a", hash := js "ffffffffffffffffffffffffffffffffffffffff"
    mode := js "100644", size := 0, timestamp := 0 }

set_option maxRecDepth 1000000 in
/-- C2 as stated is false: with two entries sharing a path, a permuted
input yields a different tree fingerprint. -/
theorem claim_C2_counterexample :
    [dupB, dupA].Perm [dupA, dupB]
    ∧ (createTree [] [dupA, dupB]).1 ≠ (createTree [] [dupB, dupA]).1 :=
  ⟨List.Perm.swap dupA dupB [], by decide⟩

/-- C2 amended: for every list of tree entries with pairwise-distinct
paths and every permutation of it, `build_tree` returns the same tree
fingerprint (and leaves the store in the same state). -/
theorem claim_C2_tree_perm_invariant (os : Objects) (l₁ l₂ : List Entry)
    (hperm : l₁.Perm l₂) (hnd : (l₁.map Entry.path).Nodup) :
    (createTree os l₁).1 = (createTree os l₂).1
    ∧ (createTree os l₁).2 = (createTree os l₂).2 := by
  have hs : sortEntries l₁ = sortEntries l₂ :=
    sorted_nodup_path_unique
      ((sortEntries_perm l₁).trans (hperm.trans (sortEntries_perm l₂).symm))
      (sortEntries_sorted l₁) (sortEntries_sorted l₂)
      (((sortEntries_perm l₁).map Entry.path).nodup_iff.mpr hnd)
  constructor <;> simp [createTree, hs]

/-- Distinct-path entry for the C2 witness. -/
def wEntA : Entry :=
  { path := js "a", hash := js "0000000000000000000000000000000000000000"
    mode := js "100644", size := 0, timestamp := 0 }

/-- Distinct-path entry for the C2 witness. -/
def wEntB : Entry :=
  { path := js "b", hash := js "ffffffffffffffffffffffffffffffffffffffff"
    mode := js "100644", size := 0, timestamp := 0 }

theorem claim_C2_witness :
    [wEntB, wEntA].Perm [wEntA, wEntB]
    ∧ ([wEntB, wEntA].map Entry.path).Nodup
    ∧ (createTree [] [wEntB, wEntA]).1 = (createTree [] [wEntA, wEntB]).1 :=
  ⟨by decide, by decide,
   (claim_C2_tree_perm_invariant [] [wEntB, wEntA] [wEntA, wEntB] (by decide) (by decide)).1⟩

/-! ### Claim C6: tree encoding -/

/-- Modelled from the spec: "sorts entries by path ascending
(byte-wise)" — comparison of paths by their code-unit values. -/
def specByteLe (a b : Entry) : Prop :=
  listLe (a.path.map Char.toNat) (b.path.map Char.toNat) = true

instance : DecidableRel specByteLe := fun a b => by unfold specByteLe; infer_instance

/-- Modelled from the spec: the per-entry encoding
`"<mode> <path>\0" + <raw fingerprint bytes>` using the entry's own mode
field. -/
def specTreeEntryBytes (e : Entry) : Bytes :=
  (e.mode ++ js " " ++ e.path).map (fun c => c.toNat % 256) ++ 0 :: hexDecode e.hash

/-- Modelled from the spec: the tree payload prescribed by the spec
sentence for `build_tree`. -/
def specTreeContent (l : List Entry) : Bytes :=
  ((l.insertionSort specByteLe).map specTreeEntryBytes).flatten

/-- An executable entry with a non-default mode. -/
def c6a : Entry :=
  { path := js "a.txt", hash := js "0000000000000000000000000000000000000000"
    mode := js "100755", size := 0, timestamp := 0 }

/-- An entry whose path sorts before `a.txt` byte-wise but after it under
`localeCompare`. -/
def c6b : Entry :=
  { path := js "B.txt", hash := js "ffffffffffffffffffffffffffffffffffffffff"
    mode := js "100644", size := 0, timestamp := 0 }

set_option maxRecDepth 1000000 in
/-- C6 as stated is false: the stored tree payload uses the hardcoded
mode `100644` (not the entry's own mode) and the `localeCompare` order
(`a.txt` before `B.txt`), so it differs from the byte-wise-sorted,
own-mode payload the claim prescribes. -/
theorem claim_C6_counterexample :
    lookupStr (createTree [] [c6a, c6b]).2 (createTree [] [c6a, c6b]).1
      = some (encodeObject (js "tree") (.buf (treeContent (sortEntries [c6a, c6b]))))
    ∧ treeContent (sortEntries [c6a, c6b]) ≠ specTreeContent [c6a, c6b] :=
  ⟨by decide, by decide⟩

/-- C6 amended: `build_tree` sorts its entries by path ascending under
the implementation's `localeCompare` collation (not byte-wise) and
encodes, per entry in that order, `"100644 <path>\0"` followed by the
entry's raw fingerprint bytes — the hardcoded regular-file mode, ignoring
each entry's mode field — and stores the concatenation as a Tree object. -/
theorem claim_C6_createTree_spec (os : Objects) (l : List Entry) :
    createTree os l = storeObject os (js "tree") (.buf (treeContent (sortEntries l)))
    ∧ List.Sorted entryLe (sortEntries l)
    ∧ (sortEntries l).Perm l
    ∧ ∀ e : Entry, treeEntryBytes e
        = (js "100644 " ++ e.path).map (fun c => c.toNat % 256) ++ 0 :: hexDecode e.hash :=
  ⟨rfl, sortEntries_sorted l, sortEntries_perm l, fun _ => rfl⟩

/-! ### Claim C1: object encoding and idempotent store -/

/-- Modelled from the spec: the canonical encoding
`"<kind> <byte-length>\0<payload>"`, whose declared length is the byte
length of the payload. -/
def specEncodeObject (type : JStr) (content : JSVal) : Bytes :=
  utf8Str (type ++ js " " ++ natToChars (jsBytes content).length) ++ 0 :: jsBytes content

set_option maxRecDepth 1000000 in
/-- C1 as stated is false for string payloads with non-ASCII characters:
`storeObject('commit', "é")` persists a buffer whose declared length is
the UTF-16 code-unit count (1), not the byte length of the UTF-8 payload
(2). -/
theorem claim_C1_counterexample :
    lookupStr (storeObject [] (js "commit") (.str (js "é"))).2
        (storeObject [] (js "commit") (.str (js "é"))).1
      = some (encodeObject (js "commit") (.str (js "é")))
    ∧ encodeObject (js "commit") (.str (js "é"))
        ≠ specEncodeObject (js "commit") (.str (js "é")) :=
  ⟨by decide, by decide⟩

/-- C1 amended: `store(kind, payload)` persists the buffer
`"<kind> <declared-length>\0" + payload-bytes` where the declared length
is the payload's `.length` — the byte length for buffer payloads but the
UTF-16 code-unit count for string payloads — returns the fingerprint
computed over that full encoded buffer, and a second identical store
returns the identical fingerprint and leaves the stored content
unchanged. -/
theorem claim_C1_storeObject_spec (os : Objects) (type : JStr) (content : JSVal) :
    (storeObject os type content).1 = sha1Hex (encodeObject type content)
    ∧ lookupStr (storeObject os type content).2 (storeObject os type content).1
        = some (encodeObject type content)
    ∧ storeObject (storeObject os type content).2 type content = storeObject os type content
    ∧ (∀ b, content = .buf b → jsLen content = b.length) := by
  refine ⟨rfl, lookupStr_insert _ _ _, ?_, ?_⟩
  · show (sha1Hex (encodeObject type content),
      insertStr (insertStr os (sha1Hex (encodeObject type content)) (encodeObject type content))
        (sha1Hex (encodeObject type content)) (encodeObject type content)) = _
    rw [insertStr_idem]
    rfl
  · intro b hb
    subst hb
    rfl

set_option maxRecDepth 1000000 in
theorem claim_C1_witness :
    (storeObject [] (js "blob") (.buf [1, 2])).1
      = sha1Hex (encodeObject (js "blob") (.buf [1, 2]))
    ∧ jsLen (.buf [1, 2]) = ([1, 2] : Bytes).length :=
  ⟨(claim_C1_storeObject_spec [] (js "blob") (.buf [1, 2])).1,
   (claim_C1_storeObject_spec [] (js "blob") (.buf [1, 2])).2.2.2 [1, 2] rfl⟩

/-! ### Claim C7: retrieval errors -/

/-- A stored buffer with no NUL separator. -/
def c7Store1 : Objects := [(js "ab", [97, 98])]

/-- A stored buffer whose declared length (5) mismatches its payload
(2 bytes). -/
def c7Store2 : Objects := [(js "cd", utf8Str (js "blob 5") ++ 0 :: utf8Str (js "xy"))]

/-- C7 as stated is false: on a missing separator or a length mismatch,
`retrieve` does not fail with Corrupt — it succeeds with a leniently
parsed result (no corruption check exists in the code). -/
theorem claim_C7_counterexample :
    getObject c7Store1 (js "ab")
      = .ok { type := js "a", size := none, content := [97, 98] }
    ∧ getObject c7Store2 (js "cd")
      = .ok { type := js "blob", size := some 5, content := utf8Str (js "xy") } :=
  ⟨by decide, by decide⟩

/-- C7 amended: `retrieve(fingerprint)` fails with NotFound when no
object is stored under that fingerprint; when an object is present, it
never fails — unparseable encodings (missing separator, length mismatch)
are returned leniently parsed rather than rejected (no Corrupt error
exists). -/
theorem claim_C7_getObject_spec (os : Objects) (h : JStr) :
    (lookupStr os h = none → getObject os h = .error (.notFound h))
    ∧ (∀ b, lookupStr os h = some b → getObject os h = .ok (parseObjectBuf b)) := by
  constructor
  · intro hm
    unfold getObject
    rw [hm]
  · intro b hm
    unfold getObject
    rw [hm]

theorem claim_C7_witness :
    (lookupStr ([] : Objects) (js "zz") = none
      ∧ getObject ([] : Objects) (js "zz") = .error (.notFound (js "zz")))
    ∧ (lookupStr c7Store1 (js "ab") = some [97, 98]
      ∧ getObject c7Store1 (js "ab") = .ok (parseObjectBuf [97, 98])) :=
  ⟨⟨rfl, (claim_C7_getObject_spec [] (js "zz")).1 rfl⟩,
   ⟨rfl, (claim_C7_getObject_spec c7Store1 (js "ab")).2 [97, 98] rfl⟩⟩

/-! ### Claim C10: nested branch names -/

/-- The state after `create_branch("feature/auth")` on a fresh
repository: the branch file exists on disk. -/
def c10State : State :=
  { initState with branches := [(js "feature/auth", []), (js "master", [])] }

/-- C10: the code violates the claim — `createBranch` writes the nested
branch file, but `listBranches` (a non-recursive `readdir` whose
`isFile()` filter drops directories) does not report it, so `checkout`
fails with NoSuchBranch. -/
theorem claim_C10_nested_branch_bug :
    mygitCreateBranch initState (js "feature/auth") = .ok c10State
    ∧ (js "feature/auth") ∉ listBranches c10State
    ∧ listBranches c10State = [js "master"]
    ∧ checkout c10State (js "feature/auth") = .error (.noSuchBranch (js "feature/auth")) :=
  ⟨by decide, by decide, by decide, by decide⟩

set_option maxRecDepth 1000000 in
/-- Sanity check of the SHA-1 model: the FIPS 180-4 test vector
SHA1("abc"). -/
theorem sha1Hex_testvector :
    sha1Hex (utf8Str (js "abc")) = js "a9993e364706816aba3e25717850c26c9cd0d89d" := by
  decide

end MG
